import Mathlib

/-!
Verification development for the query and mutation engine of the `gg` repository
(`src-tauri/src/worker/queries.rs` and `src-tauri/src/worker/mutations.rs`).

The Rust code is shallowly embedded: file contents are lists of bytes
(`List Nat`), commits and trees are records carrying exactly the fields the
transplant engine inspects, and the external `jj_lib` store primitives
(three-way tree merge, rebase of descendants, commit lookup, the immutable-set
membership predicate) are supplied as an explicit environment record, mirroring
the spec's treatment of the store as an external collaborator with a fixed
contract. Transactions are modelled as a trace of store operations plus a flag
recording whether `finish_transaction` was reached, so that claims about
"nothing was written" and "the transaction was not committed" are directly
expressible. Rust panics (out-of-range slicing) are modelled as `Option.none`.
-/

namespace GG

/-! ## Bytes, lines and whitespace

File contents are byte lists. The embedding mirrors the exact Rust string
operations used by the worker: `str::lines` (split at `\n`, strip a `\r`
from the end of every newline-terminated fragment, drop a trailing empty
fragment), `str::trim_end` (ASCII whitespace; the Rust original also trims
non-ASCII Unicode whitespace, which does not occur in byte-level reasoning
here), and the manual join-with-`\n` loops of `mutations.rs`. -/

/-- Split a byte list at every newline (byte 10), keeping the fragments.
`splitNl [] = [[]]`, matching the behaviour of splitting an empty buffer. -/
def splitNl : List Nat → List (List Nat)
  | [] => [[]]
  | b :: bs =>
    if b = 10 then [] :: splitNl bs
    else
      match splitNl bs with
      | [] => [[b]]
      | l :: ls => (b :: l) :: ls

/-- Strip one carriage return (byte 13) from the end of a line, as Rust's
`str::lines` does for fragments that were terminated by a newline. -/
def stripCr (l : List Nat) : List Nat :=
  if l.getLast? = some 13 then l.dropLast else l

/-- Embedding of Rust `str::lines()`: split at `\n`, drop the final fragment
when it is empty (i.e. when the buffer ends with a newline), and strip a
trailing `\r` from every fragment that was newline-terminated. The final
fragment of a buffer that does not end in `\n` is kept verbatim. -/
def rustLines (c : List Nat) : List (List Nat) :=
  if (splitNl c).getLast? = some [] then (splitNl c).dropLast.map stripCr
  else (splitNl c).dropLast.map stripCr ++ [(splitNl c).getLastD []]

/-- ASCII whitespace bytes, the ASCII fragment of Rust `char::is_whitespace`. -/
def isWsByte (b : Nat) : Bool :=
  b = 9 || b = 10 || b = 11 || b = 12 || b = 13 || b = 32

/-- Embedding of Rust `str::trim_end`: drop trailing whitespace bytes. -/
def trimEnd (l : List Nat) : List Nat :=
  (l.reverse.dropWhile isWsByte).reverse

/-- Embedding of Rust `str::trim_end_matches('\n')`: drop trailing newlines. -/
def trimEndNl (l : List Nat) : List Nat :=
  (l.reverse.dropWhile (fun b => b = 10)).reverse

/-- Whether a byte buffer ends with a newline (`content.ends_with(b"\n")`). -/
def endsWithNl (c : List Nat) : Bool :=
  c.getLast? = some 10

/-- Join lines with single `\n` separators and no trailing newline, the
byte-assembly loop shared by `apply_hunk_to_base` and `CopyHunk::execute`
(`push b'\n'` after every line except the last). -/
def joinNl : List (List Nat) → List Nat
  | [] => []
  | [l] => l
  | l :: ls => l ++ 10 :: joinNl ls

/-- Final content assembly of `apply_hunk_to_base` and `CopyHunk::execute`:
join the lines, then restore a trailing newline when the original buffer had
one, the result is nonempty, and the join did not already end in a newline. -/
def finishContent (ls : List (List Nat)) (origEndsNl : Bool) : List Nat :=
  let r := joinNl ls
  if origEndsNl && !r.isEmpty && !(endsWithNl r) then r ++ [10] else r

/-! ## Hunk data model (`messages::ChangeHunk`)

A hunk records `from_file`/`to_file` line ranges (1-indexed start plus
length) and an ordered list of tagged text lines. Each line is stored the
way `get_unified_hunks` produces it: a tag byte (32 context, 45 removed,
43 added) followed by the line's bytes. -/

structure FileRange where
  start : Nat
  len : Nat
deriving DecidableEq, Repr

structure HunkLocation where
  from_file : FileRange
  to_file : FileRange
deriving DecidableEq, Repr

structure ChangeHunk where
  location : HunkLocation
  lines : List (List Nat)
deriving DecidableEq, Repr

/-- Hard (non-precondition) error values raised by the transplant engine.
These model the `anyhow!`/`bail!` failures of `mutations.rs`; the string
payloads of the Rust messages are carried as structured fields. -/
inductive HardErr where
  /-- "Hunk mismatch at line {n}: expected .., found .." in `apply_hunk_to_base`. -/
  | hunkMismatch (lineNo : Nat) (expected found : List Nat)
  /-- "Malformed diff line" in `apply_hunk_to_base`. -/
  | malformedLine (line : List Nat)
  /-- "descendant to_commit not found in rebase map" in `MoveHunk::execute`. -/
  | descendantNotFound
  /-- "Hunk validation failed: expected {n} lines, found {m} lines" in `CopyHunk::execute`. -/
  | countMismatch (expected actual : Nat)
  /-- "Hunk validation failed at line {i}: expected .., found .." in `CopyHunk::execute`. -/
  | lineMismatch (lineNo : Nat) (expected actual : List Nat)
deriving DecidableEq, Repr

/-- The byte rendering of the `"<EOF>"` marker used in the hunk-mismatch
error message when the running offset is past the end of the base. -/
def eofMark : List Nat := [60, 69, 79, 70, 62]

/-! ## `apply_hunk_to_base` (mutations.rs:1216)

The walk over the hunk's tagged lines. Context (32) and removed (45) lines
are compared - after `trim_end` on both sides - against the base's line at
the running offset; context lines keep the base's copy, removed lines are
consumed silently, added (43) lines are emitted after `trim_end_matches('\n')`,
and any other tag is a malformed-line hard error. -/

def hunkWalk (baseLines : List (List Nat)) :
    List (List Nat) → Nat → Except HardErr (List (List Nat) × Nat)
  | [], idx => .ok ([], idx)
  | dl :: rest, idx =>
    if dl.head? = some 32 ∨ dl.head? = some 45 then
      if idx < baseLines.length ∧ trimEnd (baseLines.getD idx []) = trimEnd dl.tail then
        match hunkWalk baseLines rest (idx + 1) with
        | .ok (out, fin) =>
          .ok ((if dl.head? = some 32 then [baseLines.getD idx []] else []) ++ out, fin)
        | .error e => .error e
      else
        .error (.hunkMismatch (idx + 1) (trimEnd dl.tail)
          (((baseLines.get? idx).map trimEnd).getD eofMark))
    else if dl.head? = some 43 then
      match hunkWalk baseLines rest idx with
      | .ok (out, fin) => .ok (trimEndNl dl.tail :: out, fin)
      | .error e => .error e
    else
      .error (.malformedLine dl)

/-- Embedding of `apply_hunk_to_base` (mutations.rs:1216-1276). The result is
`none` when the Rust function panics: the slice `base_lines[..hunk_start]`
is out of range whenever `from_file.start - 1` (saturating) exceeds the
base's line count, and no bounds check precedes it. Otherwise the walk runs
and the surviving lines are joined, restoring the base's trailing-newline
convention. -/
def apply_hunk_to_base (base_content : List Nat) (hunk : ChangeHunk) :
    Option (Except HardErr (List Nat)) :=
  let baseLines := rustLines base_content
  let hunkStart := hunk.location.from_file.start - 1
  if hunkStart > baseLines.length then none
  else
    some <|
      match hunkWalk baseLines hunk.lines hunkStart with
      | .error e => .error e
      | .ok (out, fin) =>
        .ok (finishContent (baseLines.take hunkStart ++ out ++ baseLines.drop fin)
          (endsWithNl base_content))

/-! ## Store model for the transplant engine

The transplant operations touch exactly one repository path. A `Tree` is
therefore modelled by its content-addressed identity (`tid`, standing for
`MergedTree::tree_ids()`, compared when deciding whether the remainder
equals the base) together with what the worker can observe at that path:
the bytes `read_file_content` returns, the resolved executable bit if the
path holds a resolved file value (`none` models absent paths, non-file
values and unresolved conflicts, all of which the Rust `match` arms map to
`false`), and whether the path value is an unresolved conflict. -/

structure Tree where
  tid : Nat
  fileContent : List Nat
  fileExec : Option Bool
  conflicted : Bool
deriving DecidableEq, Repr

structure CommitRec where
  cid : Nat
  desc : String
  tree : Tree
deriving DecidableEq, Repr

/-- Outcome reported for one commit by `rebase_descendants_with_options`:
either rewritten to a new commit id or abandoned in favour of a parent id. -/
inductive RebasedTo where
  | rewritten (newId : Nat)
  | abandonedParent (parentId : Nat)
deriving DecidableEq, Repr

/-- The id the move-hunk rebase map stores for a rebased commit
(`RebasedCommit::Rewritten` keeps the new id, `Abandoned` the parent id). -/
def rebasedId : RebasedTo → Nat
  | .rewritten n => n
  | .abandonedParent p => p

/-- External store primitives consumed by the transplant engine (spec section 6),
supplied as an environment. `merge t a b` stands for `t.merge(a, b)` on merged
trees, `updateTree` for `store.write_file` followed by `update_tree_entry`,
`rebaseReport` for the old-to-new pairs the store reports through the
`rebase_descendants_with_options` callback, `rebasedCommit` for
`store.get_commit` on a rebased id, and `finishChanged` for whether
`finish_transaction` observes a change (`Some(new_status)`).

Modelled from the spec: `check_immutable` (defined in `gui_util.rs`, outside
the analysed sources) evaluates the externally-maintained immutable-commit-set
membership predicate on each given id; it is modelled here by `isImmutableC`
applied to each endpoint. -/
structure StoreEnv where
  isImmutableC : Nat → Bool
  merge : Tree → Tree → Tree → Tree
  updateTree : Tree → List Nat → Bool → Tree
  isAncestor : Nat → Nat → Bool
  rebaseReport : List (Nat × RebasedTo)
  rebasedCommit : Nat → CommitRec
  finishChanged : Bool

/-- User-visible mutation outcomes (`messages::MutationResult`); the status
payloads of `Updated` are irrelevant to the claims and omitted. -/
inductive MutationResult where
  | updated
  | unchanged
  | preconditionError (message : String)
deriving DecidableEq, Repr

/-- Store operations performed inside a transaction, recorded as a trace:
blob writes (`store.write_file`), tree writes (`update_tree_entry`), commit
rewrites (`rewrite_commit ... set_tree ... [set_description]`), abandonment
records, and the two forms of descendant rebasing. -/
inductive TxOp where
  | writeBlob (content : List Nat)
  | writeTree (t : Tree)
  | rewriteCommit (target : Nat) (tree : Tree) (desc : Option String)
  | recordAbandoned (target : Nat)
  | rebaseDescendants
  | rebaseDescendantsWithMap (reported : List (Nat × RebasedTo))
deriving DecidableEq, Repr

/-- Result of running one mutation: the returned value (hard errors as
`Except.error`), the trace of store operations issued before returning, and
whether `finish_transaction` was reached (a dropped transaction commits
nothing). -/
structure MutationRun where
  result : Except HardErr MutationResult
  trace : List TxOp
  committed : Bool
deriving Repr

/-- Embedding of `combine_messages` (mutations.rs:1155-1167). -/
def combine_messages (source destination : CommitRec) (abandon_source : Bool) : String :=
  if abandon_source then
    if source.desc = "" then destination.desc
    else if destination.desc = "" then source.desc
    else destination.desc ++ "\n" ++ source.desc
  else destination.desc

/-- Arguments of a move-hunk mutation after id resolution: the source commit,
its parent list (`from.parents()`), the destination commit and the hunk. -/
structure MoveArgs where
  fromC : CommitRec
  fromParents : List CommitRec
  toC : CommitRec
  hunk : ChangeHunk

/-- Finish outcome: `finish_transaction` maps `Some(status)` to `Updated` and
`None` to `Unchanged`. -/
def finishResult (env : StoreEnv) : MutationResult :=
  if env.finishChanged then .updated else .unchanged

/-- `base_tree`: the tree of the source's sole parent (`from_parents[0].tree()`). -/
def moveBaseTree (a : MoveArgs) : Tree :=
  (a.fromParents.headD ⟨0, "", a.fromC.tree⟩).tree

/-- `sibling_tree`: the base tree with the hunk's reconstructed file content
written at the path, carrying over the source tree's executable bit
(mutations.rs:762-781). `sc` is the sibling content `apply_hunk_to_base`
produced. -/
def moveSibling (env : StoreEnv) (a : MoveArgs) (sc : List Nat) : Tree :=
  env.updateTree (moveBaseTree a) sc (a.fromC.tree.fileExec.getD false)

/-- `remainder_tree = from_tree.merge(sibling_tree, base_tree)`. -/
def moveRemainder (env : StoreEnv) (a : MoveArgs) (sc : List Nat) : Tree :=
  env.merge a.fromC.tree (moveSibling env a sc) (moveBaseTree a)

/-- `new_to_tree = to_tree.merge(base_tree, sibling_tree)`. -/
def moveNewToTree (env : StoreEnv) (a : MoveArgs) (sc : List Nat) : Tree :=
  env.merge a.toC.tree (moveBaseTree a) (moveSibling env a sc)

/-- `abandon_source = remainder_tree.tree_ids() == base_tree.tree_ids()`. -/
def moveAbandon (env : StoreEnv) (a : MoveArgs) (sc : List Nat) : Bool :=
  (moveRemainder env a sc).tid == (moveBaseTree a).tid

/-- The description computed for the destination before branching on ancestry. -/
def moveDescription (env : StoreEnv) (a : MoveArgs) (sc : List Nat) : String :=
  combine_messages a.fromC a.toC (moveAbandon env a sc)

/-- The source-handling operations: abandon the source when the remainder
equals the base, otherwise rewrite it with the remainder tree. -/
def moveSourceOps (env : StoreEnv) (a : MoveArgs) (sc : List Nat) : List TxOp :=
  if moveAbandon env a sc then [.recordAbandoned a.fromC.cid]
  else [.rewriteCommit a.fromC.cid (moveRemainder env a sc) none]

/-- Store writes for the sibling blob and tree, performed before branching. -/
def moveHead (env : StoreEnv) (a : MoveArgs) (sc : List Nat) : List TxOp :=
  [.writeBlob sc, .writeTree (moveSibling env a sc)]

/-- The ancestry-directed tail of `MoveHunk::execute` (mutations.rs:799-872),
run after the sibling content `sc` is computed: destination-ancestor first
rewrites the destination and then the source with one rebase; source-ancestor
handles the source, rebases with the reporting callback, looks the destination
up in the reported map (hard error when absent), recomputes the merge against
the rebased destination's tree, rewrites it and rebases again; unrelated
commits handle the source, rewrite the destination and rebase once. -/
def moveBranch (env : StoreEnv) (a : MoveArgs) (sc : List Nat) : MutationRun :=
  if env.isAncestor a.toC.cid a.fromC.cid then
    ⟨.ok (finishResult env),
      moveHead env a sc ++
        [.rewriteCommit a.toC.cid (moveNewToTree env a sc) (some (moveDescription env a sc))] ++
        moveSourceOps env a sc ++ [.rebaseDescendants], true⟩
  else if env.isAncestor a.fromC.cid a.toC.cid then
    match env.rebaseReport.lookup a.toC.cid with
    | none =>
      ⟨.error .descendantNotFound,
        moveHead env a sc ++ moveSourceOps env a sc ++
          [.rebaseDescendantsWithMap env.rebaseReport], false⟩
    | some rb =>
      ⟨.ok (finishResult env),
        moveHead env a sc ++ moveSourceOps env a sc ++
          [.rebaseDescendantsWithMap env.rebaseReport,
           .rewriteCommit (env.rebasedCommit (rebasedId rb)).cid
             (env.merge (env.rebasedCommit (rebasedId rb)).tree (moveBaseTree a)
               (moveSibling env a sc))
             (some (moveDescription env a sc)),
           .rebaseDescendants], true⟩
  else
    ⟨.ok (finishResult env),
      moveHead env a sc ++ moveSourceOps env a sc ++
        [.rewriteCommit a.toC.cid (moveNewToTree env a sc) (some (moveDescription env a sc)),
         .rebaseDescendants], true⟩

/-- Embedding of `MoveHunk::execute` (mutations.rs:738-887). The result is
`none` exactly when `apply_hunk_to_base` panics. Precondition failures return
`Ok(PreconditionError ..)` with an empty trace; the split-rebase-squash
algorithm otherwise records its store operations in order, branching on the
two ancestry lookups as the source does. -/
def moveHunkExec (env : StoreEnv) (a : MoveArgs) : Option MutationRun :=
  if env.isImmutableC a.fromC.cid || env.isImmutableC a.toC.cid then
    some ⟨.ok (.preconditionError "Revisions are immutable"), [], false⟩
  else if a.fromParents.length ≠ 1 then
    some ⟨.ok (.preconditionError "Cannot move hunk from a merge commit"), [], false⟩
  else
    match apply_hunk_to_base (moveBaseTree a).fileContent a.hunk with
    | none => none
    | some (.error e) => some ⟨.error e, [], false⟩
    | some (.ok sc) => some (moveBranch env a sc)

/-! ## `CopyHunk::execute` (mutations.rs:890-1040)

The destination's current lines are recomputed at the hunk's recorded
`to_file` offset and validated against the hunk's captured context-plus-added
lines after `trim_end` on both sides; count or content mismatches are hard
errors raised before any store write. `String::from_utf8_lossy` is modelled
as the identity on bytes (it only rewrites invalid UTF-8 sequences). -/

structure CopyArgs where
  fromC : CommitRec
  toC : CommitRec
  hunk : ChangeHunk

/-- First index at which two line lists of equal length differ, with the two
differing lines - the `zip ... enumerate` scan of the validation loop. -/
def firstDiff : List (List Nat) → List (List Nat) → Nat →
    Option (Nat × List Nat × List Nat)
  | e :: es, b :: bs, i => if e = b then firstDiff es bs (i + 1) else some (i, e, b)
  | _, _, _ => none

/-- The context-plus-added lines captured by a hunk, tag bytes stripped and
`trim_end` applied - the `expected_to_lines` of `CopyHunk::execute`. -/
def expectedToLines (hunk : ChangeHunk) : List (List Nat) :=
  (hunk.lines.filter (fun l => l.head? = some 32 || l.head? = some 43)).map
    (fun l => trimEnd l.tail)

/-- The destination's line list (`to_lines`). -/
def copyToLines (a : CopyArgs) : List (List Nat) :=
  rustLines a.toC.tree.fileContent

/-- `to_start_0based` of `CopyHunk::execute` (saturating subtraction). -/
def copyToStart (a : CopyArgs) : Nat :=
  a.hunk.location.to_file.start - 1

/-- `to_end_0based` of `CopyHunk::execute`. -/
def copyToEnd (a : CopyArgs) : Nat :=
  copyToStart a + a.hunk.location.to_file.len

/-- `actual_to_lines`: the destination's lines at the recorded range,
`trim_end` applied. -/
def actualToLines (a : CopyArgs) : List (List Nat) :=
  (((copyToLines a).drop (copyToStart a)).take a.hunk.location.to_file.len).map trimEnd

/-- The source's line list (`from_lines`). -/
def copyFromLines (a : CopyArgs) : List (List Nat) :=
  rustLines a.fromC.tree.fileContent

/-- `from_start_0based` of `CopyHunk::execute`. -/
def copyFromStart (a : CopyArgs) : Nat :=
  a.hunk.location.from_file.start - 1

/-- `from_end_0based` of `CopyHunk::execute`. -/
def copyFromEnd (a : CopyArgs) : Nat :=
  copyFromStart a + a.hunk.location.from_file.len

/-- `source_region_lines`: the source lines spliced into the destination. -/
def copyRegion (a : CopyArgs) : List (List Nat) :=
  ((copyFromLines a).drop (copyFromStart a)).take a.hunk.location.from_file.len

/-- The reconstructed destination content (`new_to_content`). -/
def copyNewContent (a : CopyArgs) : List Nat :=
  finishContent
    ((copyToLines a).take (copyToStart a) ++ copyRegion a ++ (copyToLines a).drop (copyToEnd a))
    (endsWithNl a.toC.tree.fileContent)

/-- Embedding of `CopyHunk::execute`. The trace starts empty and receives the
blob write, tree write, rewrite and rebase only on the successful path that
reaches them, so precondition failures, validation hard errors and the no-op
return all leave the store untouched and the transaction uncommitted. -/
def copyHunkExec (env : StoreEnv) (a : CopyArgs) : MutationRun :=
  if env.isImmutableC a.toC.cid then
    ⟨.ok (.preconditionError "Revision is immutable"), [], false⟩
  else if a.toC.tree.conflicted then
    ⟨.ok (.preconditionError "Cannot restore hunk: destination file has conflicts"),
      [], false⟩
  else if copyToEnd a > (copyToLines a).length then
    ⟨.ok (.preconditionError "Hunk location out of bounds"), [], false⟩
  else if (expectedToLines a.hunk).length ≠ (actualToLines a).length then
    ⟨.error (.countMismatch (expectedToLines a.hunk).length (actualToLines a).length),
      [], false⟩
  else
    match firstDiff (expectedToLines a.hunk) (actualToLines a) 0 with
    | some (i, e, act) => ⟨.error (.lineMismatch (copyToStart a + i + 1) e act), [], false⟩
    | none =>
      if copyFromEnd a > (copyFromLines a).length then
        ⟨.ok (.preconditionError "Source hunk location out of bounds"), [], false⟩
      else if copyNewContent a = a.toC.tree.fileContent then ⟨.ok .unchanged, [], false⟩
      else
        let newTree :=
          env.updateTree a.toC.tree (copyNewContent a) (a.toC.tree.fileExec.getD false)
        ⟨.ok (finishResult env),
          [.writeBlob (copyNewContent a), .writeTree newTree,
           .rewriteCommit a.toC.cid newTree none, .rebaseDescendants], true⟩

/-! ## Graph layout engine (`queries.rs:44-336`)

The layout state machine is embedded over an explicit input list of
`(commit id, outgoing edges)` pairs - the externally supplied
topologically-grouped iterator - and an environment holding the designated
root commit id and the memoized immutability predicate. The per-commit body
of `QuerySession::get_page` is split into the same phases as the source:
stem termination and column choice, trailing-stem trim, edge merging, and
the optional missing-boundary row. -/

structure LogStem where
  source : Nat × Nat
  target : Nat
  indirect : Bool
  was_inserted : Bool
  known_immutable : Bool
deriving DecidableEq, Repr

inductive GraphEdgeType where
  | direct
  | indirectE
  | missing
deriving DecidableEq, Repr

structure GraphEdge where
  target : Nat
  edge_type : GraphEdgeType
deriving DecidableEq, Repr

inductive LogLine where
  | fromNode (indirect : Bool) (source target : Nat × Nat)
  | toNode (indirect : Bool) (source target : Nat × Nat)
  | toIntersection (indirect : Bool) (source target : Nat × Nat)
  | toMissing (indirect : Bool) (source target : Nat × Nat)
deriving DecidableEq, Repr

structure LogRow where
  commit : Nat
  location : Nat × Nat
  padding : Nat
  lines : List LogLine
  is_immutable : Bool
deriving DecidableEq, Repr

structure QueryState where
  page_size : Nat
  next_row : Nat
  stems : List (Option LogStem)
deriving Repr

structure LayoutEnv where
  rootId : Nat
  isImmutable : Nat → Bool

/-- Embedding of `QuerySession::find_stem_for_commit`: index of the first
stem slot whose stem targets the given commit. -/
def find_stem_for_commit (stems : List (Option LogStem)) (id : Nat) : Option Nat :=
  stems.findIdx? (fun s => match s with | some st => st.target == id | none => false)

/-- The trailing-stem trim (queries.rs:215-225): drop empty slots from the
right edge of the stem array. -/
def trimStems (s : List (Option LogStem)) : List (Option LogStem) :=
  (s.reverse.dropWhile Option.isNone).reverse

/-- Result of the stem-termination and column-choice phase. -/
structure TermOut where
  column : Nat
  padding : Nat
  lines : List LogLine
  stemImm : Bool
  stems : List (Option LogStem)

/-- Stem termination and column choice (queries.rs:160-201): a stem targeting
the commit fixes the column and is terminated with a connector line; otherwise
the first empty slot is reused, or the column is placed one past the end. -/
def terminatePhase (stems0 : List (Option LogStem)) (cid row : Nat) : TermOut :=
  match find_stem_for_commit stems0 cid with
  | some slot =>
    let lineImm :=
      match stems0.getD slot none with
      | some st =>
        ([if st.was_inserted then LogLine.fromNode st.indirect st.source (slot, row)
          else LogLine.toNode st.indirect st.source (slot, row)], st.known_immutable)
      | none => ([], false)
    ⟨slot, stems0.length - slot - 1, lineImm.1, lineImm.2, stems0.set slot none⟩
  | none =>
    match stems0.findIdx? Option.isNone with
    | some slot => ⟨slot, stems0.length - slot - 1, [], false, stems0⟩
    | none => ⟨stems0.length, 0, [], false, stems0⟩

/-- State threaded through the edge-merging loop. -/
structure EdgeState where
  stems : List (Option LogStem)
  lines : List LogLine
  nextMissing : Option Nat

/-- The body of the edge-merging loop for a single non-root edge, after the
pending-missing bookkeeping: an edge whose target is already awaited emits an
intersection line; otherwise the first empty slot is claimed (marking the
stem inserted) or a new stem is appended. -/
def edgeStep (column row : Nat) (headerImm : Bool) (e : GraphEdge)
    (st1 : EdgeState) : EdgeState :=
  let ind := e.edge_type ≠ GraphEdgeType.direct
  match find_stem_for_commit st1.stems e.target with
  | some slot =>
    { st1 with
      lines := st1.lines ++ [.toIntersection ind (column, row) (slot, row + 1)] }
  | none =>
    match st1.stems.findIdx? Option.isNone with
    | some slot =>
      { st1 with
        stems := st1.stems.set slot (some ⟨(column, row), e.target, ind, true, headerImm⟩) }
    | none =>
      { st1 with
        stems := st1.stems ++ [some ⟨(column, row), e.target, ind, false, headerImm⟩] }

/-- The edge-merging loop (queries.rs:227-277): a missing edge to the root is
dropped; any other missing edge is remembered as pending before the common
per-edge body runs. -/
def processEdges (env : LayoutEnv) (column row : Nat) (headerImm : Bool) :
    List GraphEdge → EdgeState → EdgeState
  | [], st => st
  | e :: es, st =>
    if e.edge_type = .missing ∧ e.target = env.rootId then
      processEdges env column row headerImm es st
    else
      processEdges env column row headerImm es
        (edgeStep column row headerImm e
          (if e.edge_type = .missing then { st with nextMissing := some e.target } else st))

/-- The per-commit phases up to and including edge merging: termination and
column choice, immutability, trailing trim, then the edge loop. -/
def afterEdges (env : LayoutEnv) (row : Nat) (stems0 : List (Option LogStem))
    (cid : Nat) (edges : List GraphEdge) : TermOut × EdgeState × Bool :=
  let t := terminatePhase stems0 cid row
  let imm := if t.stemImm then true else env.isImmutable cid
  let es := processEdges env t.column row imm edges ⟨trimStems t.stems, [], none⟩
  (t, es, imm)

/-- Result of one full loop iteration of `get_page`. -/
structure StepOut where
  row : LogRow
  nextRow : Nat
  stems : List (Option LogStem)

/-- The optional missing-boundary connector row (queries.rs:288-302): if the
pending missing edge's target matches a stem, a boundary connector is drawn
one row below the commit's row (the row counter has already advanced, so the
connector runs from `(column, row)` to `(slot, row + 1)`), the stem's slot is
cleared, and an extra output row is consumed. -/
def missingPhase (cid row : Nat) (t : TermOut) (es : EdgeState) (imm : Bool) : StepOut :=
  match es.nextMissing.bind (fun id => find_stem_for_commit es.stems id) with
  | some slot =>
    ⟨⟨cid, (t.column, row), t.padding,
        t.lines ++ es.lines ++
          (match es.stems.getD slot none with
           | some st => [LogLine.toMissing st.indirect (t.column, row) (slot, row + 1)]
           | none => []),
        imm⟩,
      row + 2, es.stems.set slot none⟩
  | none => ⟨⟨cid, (t.column, row), t.padding, t.lines ++ es.lines, imm⟩, row + 1, es.stems⟩

/-- One full iteration of the `get_page` loop for one commit. -/
def processCommit (env : LayoutEnv) (row : Nat) (stems0 : List (Option LogStem))
    (cid : Nat) (edges : List GraphEdge) : StepOut :=
  missingPhase cid row (afterEdges env row stems0 cid edges).1
    (afterEdges env row stems0 cid edges).2.1 (afterEdges env row stems0 cid edges).2.2

/-- Result of draining one page from the layout loop. -/
structure PageOut where
  rows : List LogRow
  finalRow : Nat
  stems : List (Option LogStem)
  remaining : List (Nat × List GraphEdge)

/-- The `get_page` loop: process commits from the iterator, stopping after an
iteration whose final row counter is exactly `maxRow` (queries.rs:305-307) or
when the iterator is exhausted. -/
def getPageLoop (env : LayoutEnv) (maxRow : Nat) :
    List (Nat × List GraphEdge) → Nat → List (Option LogStem) → PageOut
  | [], row, stems => ⟨[], row, stems, []⟩
  | (cid, edges) :: rest, row, stems =>
    let s := processCommit env row stems cid edges
    if s.nextRow = maxRow then ⟨[s.row], s.nextRow, s.stems, rest⟩
    else
      let p := getPageLoop env maxRow rest s.nextRow s.stems
      ⟨s.row :: p.rows, p.finalRow, p.stems, p.remaining⟩

structure LogPage where
  rows : List LogRow
  has_more : Bool
deriving Repr

/-- Embedding of `QuerySession::get_page`: drain up to a page of rows, update
the session state, and report `has_more` as "the iterator has a further
element after the call" (`iter.peek().is_some()`). -/
def get_page (env : LayoutEnv) (st : QueryState)
    (input : List (Nat × List GraphEdge)) :
    LogPage × QueryState × List (Nat × List GraphEdge) :=
  let p := getPageLoop env (st.next_row + st.page_size) input st.next_row st.stems
  (⟨p.rows, !p.remaining.isEmpty⟩, ⟨st.page_size, p.finalRow, p.stems⟩, p.remaining)

/-! ## Unified-hunk construction (`queries.rs:617-834`)

`unified_diff_hunks` consumes the output of the external line-level diff
(`diff_by_line`, built on `jj_lib::diff::Diff` with the line tokenizer). That
external output is modelled as a list of segments: a `matching` segment
carries the common run of lines (with `LineCompareMode::Exact`, the mode
`get_unified_hunks` uses, both sides of a matching hunk are byte-identical,
so one list suffices), and a `different` segment carries the left and right
line runs of a non-matching region. Lines are the newline-inclusive tokens of
`split_inclusive(b'\n')`; the concatenation of the segments' left (resp.
right) lines is by definition the left (resp. right) buffer, which is the
tokenizer's contract. The word-level refinement and `unzip_diff_hunks_to_lines`
only re-split a different region's bytes into the same lines with intra-line
highlighting tags, so a `different` segment directly carries its line lists. -/

inductive DiffSeg where
  | matching (ls : List (List Nat))
  | different (l r : List (List Nat))
deriving Repr

/-- Left-buffer lines contributed by one segment. -/
def segL : DiffSeg → List (List Nat)
  | .matching ls => ls
  | .different l _ => l

/-- Right-buffer lines contributed by one segment. -/
def segR : DiffSeg → List (List Nat)
  | .matching ls => ls
  | .different _ r => r

/-- The left buffer's line decomposition for a segment list. -/
def segsL (segs : List DiffSeg) : List (List Nat) :=
  (segs.map segL).flatten

/-- The right buffer's line decomposition for a segment list. -/
def segsR (segs : List DiffSeg) : List (List Nat) :=
  (segs.map segR).flatten

inductive DiffLineType where
  | context
  | removed
  | added
deriving DecidableEq, Repr

/-- In-construction unified hunk (`UnifiedDiffHunk`): 1-based half-open line
ranges into the two files plus the tagged lines. -/
structure UHunk where
  lStart : Nat
  lEnd : Nat
  rStart : Nat
  rEnd : Nat
  lines : List (DiffLineType × List Nat)
deriving Repr

/-- `UnifiedDiffHunk::extend_context_lines`. -/
def extendContext (h : UHunk) (ls : List (List Nat)) : UHunk :=
  { h with lines := h.lines ++ ls.map (fun l => (.context, l)),
           lEnd := h.lEnd + ls.length, rEnd := h.rEnd + ls.length }

/-- `UnifiedDiffHunk::extend_removed_lines`. -/
def extendRemoved (h : UHunk) (ls : List (List Nat)) : UHunk :=
  { h with lines := h.lines ++ ls.map (fun l => (.removed, l)),
           lEnd := h.lEnd + ls.length }

/-- `UnifiedDiffHunk::extend_added_lines`. -/
def extendAdded (h : UHunk) (ls : List (List Nat)) : UHunk :=
  { h with lines := h.lines ++ ls.map (fun l => (.added, l)),
           rEnd := h.rEnd + ls.length }

/-- Last `n` elements of a list - the `rev().take(n)` / re-reverse pattern
used for the context lines preceding the next hunk. -/
def takeLast (n : Nat) (l : List (List Nat)) : List (List Nat) :=
  l.drop (l.length - n)

/-- The loop of `unified_diff_hunks` (queries.rs:768-834) over the diff
segments, carrying the in-construction hunk. For a matching segment: up to
`ctx` context lines extend a nonempty current hunk; the last `ctx` remaining
lines are saved as leading context for the next hunk when more segments
follow; if any lines are skipped in between, the current hunk is emitted
(when nonempty) and a fresh hunk starts with both ranges advanced past the
skipped lines. A different segment extends the current hunk with its removed
and added lines. -/
def udhAux (ctx : Nat) : List DiffSeg → UHunk → List UHunk
  | [], cur => if cur.lines.isEmpty then [] else [cur]
  | .different l r :: rest, cur => udhAux ctx rest (extendAdded (extendRemoved cur l) r)
  | .matching ms :: rest, cur =>
    let tls := if cur.lines.isEmpty then [] else ms.take ctx
    let rem := if cur.lines.isEmpty then ms else ms.drop ctx
    let before := if rest.isEmpty then [] else takeLast ctx rem
    let skip := rem.length - before.length
    let cur2 := extendContext cur tls
    if skip = 0 then udhAux ctx rest (extendContext cur2 before)
    else
      let nextCur := extendContext
        ⟨cur2.lEnd + skip, cur2.lEnd + skip, cur2.rEnd + skip, cur2.rEnd + skip, []⟩ before
      if cur2.lines.isEmpty then udhAux ctx rest nextCur
      else cur2 :: udhAux ctx rest nextCur

/-- Embedding of `unified_diff_hunks`: run the loop from an empty hunk with
both ranges at `1..1`. -/
def unified_diff_hunks (ctx : Nat) (segs : List DiffSeg) : List UHunk :=
  udhAux ctx segs ⟨1, 1, 1, 1, []⟩

/-- The tag byte `get_unified_hunks` writes before each line's content. -/
def tagByte : DiffLineType → Nat
  | .context => 32
  | .removed => 45
  | .added => 43

/-- Embedding of the per-hunk conversion in `get_unified_hunks`
(queries.rs:617-682): ranges become `start`/`len` pairs and each tagged line
becomes its tag byte followed by the line's bytes (the concatenated tokens). -/
def toChangeHunk (h : UHunk) : ChangeHunk :=
  ⟨⟨⟨h.lStart, h.lEnd - h.lStart⟩, ⟨h.rStart, h.rEnd - h.rStart⟩⟩,
    h.lines.map (fun tl => tagByte tl.1 :: tl.2)⟩

/-- Embedding of `get_unified_hunks` over the external diff's segments. -/
def get_unified_hunks (ctx : Nat) (segs : List DiffSeg) : List ChangeHunk :=
  (unified_diff_hunks ctx segs).map toChangeHunk

/-- Lines a hunk contributes to the replayed right buffer: context and added
lines with their tag byte stripped; removed lines are skipped. -/
def emitLines (ls : List (List Nat)) : List (List Nat) :=
  ls.filterMap (fun l => if l.head? = some 45 then none else some l.tail)

/-- Replay a hunk list over the left buffer's lines: copy the left lines
before each hunk's recorded `from_file` start, emit the hunk's context and
added lines, skip its `from_file` range, and copy the left lines after the
last hunk. -/
def replayHunks (L : List (List Nat)) : List ChangeHunk → Nat → List (List Nat)
  | [], pos => L.drop pos
  | h :: hs, pos =>
    (L.drop pos).take (h.location.from_file.start - 1 - pos)
      ++ emitLines h.lines
      ++ replayHunks L hs (h.location.from_file.start - 1 + h.location.from_file.len)

/-! ## Concrete fixtures used by the witness theorems -/

/-- A plain environment: nothing immutable, no ancestry, empty rebase report. -/
def envW : StoreEnv where
  isImmutableC := fun _ => false
  merge := fun t _ _ => t
  updateTree := fun t c e => ⟨t.tid + 100, c, some e, false⟩
  isAncestor := fun _ _ => false
  rebaseReport := []
  rebasedCommit := fun n => ⟨n, "", ⟨0, [], none, false⟩⟩
  finishChanged := true

/-- An environment in which every commit is immutable. -/
def envImm : StoreEnv :=
  { envW with isImmutableC := fun _ => true }

def treeBaseW : Tree := ⟨1, [120, 10, 121, 10], some false, false⟩

def commitParentW : CommitRec := ⟨1, "parent", treeBaseW⟩

def commitFromW : CommitRec := ⟨2, "src", ⟨2, [120, 10, 122, 10], some false, false⟩⟩

def commitToW : CommitRec := ⟨3, "dst", ⟨3, [120, 10, 121, 10], some false, false⟩⟩

/-- The hunk of the spec's concrete scenario: context `x`, removed `y`,
added `z`, located at lines 1-2 of both files. -/
def hunkW : ChangeHunk :=
  ⟨⟨⟨1, 2⟩, ⟨1, 2⟩⟩, [[32, 120], [45, 121], [43, 122]]⟩

/-! ## C10 -/

/-- C10: `MoveHunk::execute` performs no bounds check on the hunk's
`from_file` location before calling `apply_hunk_to_base`; whenever the
hunk's recorded `from_file.start` exceeds the base file's line count by more
than one, the slice `base_lines[..hunk_start]` is out of range and the whole
move panics (modelled as `none`), and `apply_hunk_to_base` is total exactly
under the precondition that the saturated start `from_file.start - 1` is at
most the base's line count. -/
theorem moveHunk_from_location_unchecked
    (env : StoreEnv) (a : MoveArgs) (p : CommitRec)
    (hpar : a.fromParents = [p])
    (himmF : env.isImmutableC a.fromC.cid = false)
    (himmT : env.isImmutableC a.toC.cid = false) :
    ((rustLines p.tree.fileContent).length + 1 < a.hunk.location.from_file.start →
      moveHunkExec env a = none) ∧
    ((apply_hunk_to_base p.tree.fileContent a.hunk).isSome ↔
      a.hunk.location.from_file.start - 1 ≤ (rustLines p.tree.fileContent).length) := by
  have hbase : moveBaseTree a = p.tree := by simp [moveBaseTree, hpar]
  constructor
  · intro h
    have hgt : (rustLines p.tree.fileContent).length <
        a.hunk.location.from_file.start - 1 := by omega
    have happ : apply_hunk_to_base p.tree.fileContent a.hunk = none := by
      simp [apply_hunk_to_base, hgt]
    simp [moveHunkExec, himmF, himmT, hpar, hbase, happ]
  · by_cases h : (rustLines p.tree.fileContent).length <
        a.hunk.location.from_file.start - 1
    · simp [apply_hunk_to_base, h]
      omega
    · simp [apply_hunk_to_base, h]
      omega

/-- A hunk whose recorded `from_file.start` is far out of bounds. -/
def hunkOob : ChangeHunk := ⟨⟨⟨5, 1⟩, ⟨1, 1⟩⟩, [[32, 120]]⟩

def argsOob : MoveArgs := ⟨commitFromW, [commitParentW], commitToW, hunkOob⟩

theorem moveHunk_from_location_unchecked_witness :
    moveHunkExec envW argsOob = none ∧
    ¬ (apply_hunk_to_base commitParentW.tree.fileContent hunkOob).isSome := by
  have h := moveHunk_from_location_unchecked envW argsOob commitParentW rfl rfl rfl
  exact ⟨h.1 (by decide), fun hs => absurd (h.2.mp hs) (by decide)⟩

/-! ## C7 -/

/-- C7: move-hunk preconditions. When either endpoint is immutable, or the
source commit does not have exactly one parent (in particular when it has
more than one), `MoveHunk::execute` returns a `PreconditionError` - the
immutable case with message "Revisions are immutable", the merge case with
"Cannot move hunk from a merge commit" - not a hard error, with no store
operation recorded and the transaction never committed. -/
theorem moveHunk_precondition_errors (env : StoreEnv) (a : MoveArgs) :
    ((env.isImmutableC a.fromC.cid || env.isImmutableC a.toC.cid) = true →
      moveHunkExec env a =
        some ⟨.ok (.preconditionError "Revisions are immutable"), [], false⟩) ∧
    ((env.isImmutableC a.fromC.cid || env.isImmutableC a.toC.cid) = false →
      1 < a.fromParents.length →
      moveHunkExec env a =
        some ⟨.ok (.preconditionError "Cannot move hunk from a merge commit"), [], false⟩) := by
  constructor
  · intro h
    simp [moveHunkExec, h]
  · intro h hn
    have : a.fromParents.length ≠ 1 := by omega
    simp [moveHunkExec, h, this]

def argsMergeW : MoveArgs := ⟨commitFromW, [commitParentW, commitToW], commitToW, hunkW⟩

def argsW : MoveArgs := ⟨commitFromW, [commitParentW], commitToW, hunkW⟩

theorem moveHunk_precondition_errors_witness :
    moveHunkExec envImm argsW =
      some ⟨.ok (.preconditionError "Revisions are immutable"), [], false⟩ ∧
    moveHunkExec envW argsMergeW =
      some ⟨.ok (.preconditionError "Cannot move hunk from a merge commit"), [], false⟩ :=
  ⟨(moveHunk_precondition_errors envImm argsW).1 rfl,
   (moveHunk_precondition_errors envW argsMergeW).2 rfl (by decide)⟩

/-! ## C1 -/

/-- C1: when the preconditions hold, the sibling content was reconstructed,
and the source commit is a strict ancestor of the destination (ancestor in
one direction only), `MoveHunk::execute` first abandons or rewrites the
source, then rebases descendants with the callback that records an
old-to-new id entry for every rewritten or abandoned commit (the full
reported map appears in the rebase operation and is the map the lookup
consults); if the destination's id is absent from that map the operation
fails with the hard error `descendantNotFound` (not a precondition error);
otherwise the destination's tree is recomputed as the three-way merge of the
rebased destination's tree against base and sibling, the rebased destination
is rewritten with that tree, and descendants are rebased a second time. -/
theorem moveHunk_source_ancestor_of_destination
    (env : StoreEnv) (a : MoveArgs) (sc : List Nat)
    (himm : (env.isImmutableC a.fromC.cid || env.isImmutableC a.toC.cid) = false)
    (hpar : a.fromParents.length = 1)
    (happ : apply_hunk_to_base (moveBaseTree a).fileContent a.hunk = some (.ok sc))
    (hanc : env.isAncestor a.fromC.cid a.toC.cid = true)
    (hnanc : env.isAncestor a.toC.cid a.fromC.cid = false) :
    (env.rebaseReport.lookup a.toC.cid = none →
      moveHunkExec env a = some ⟨.error .descendantNotFound,
        moveHead env a sc ++ moveSourceOps env a sc ++
          [.rebaseDescendantsWithMap env.rebaseReport], false⟩) ∧
    (∀ rb, env.rebaseReport.lookup a.toC.cid = some rb →
      moveHunkExec env a = some ⟨.ok (finishResult env),
        moveHead env a sc ++ moveSourceOps env a sc ++
          [.rebaseDescendantsWithMap env.rebaseReport,
           .rewriteCommit (env.rebasedCommit (rebasedId rb)).cid
             (env.merge (env.rebasedCommit (rebasedId rb)).tree (moveBaseTree a)
               (moveSibling env a sc))
             (some (moveDescription env a sc)),
           .rebaseDescendants], true⟩) := by
  constructor
  · intro hl
    simp [moveHunkExec, himm, hpar, happ, moveBranch, hanc, hnanc, hl]
  · intro rb hl
    simp [moveHunkExec, himm, hpar, happ, moveBranch, hanc, hnanc, hl]

/-- An environment in which commit 2 is an ancestor of commit 3 and the
rebase of descendants reports nothing. -/
def envAncA : StoreEnv := { envW with isAncestor := fun x y => x == 2 && y == 3 }

/-- Same ancestry, but the rebase reports the destination rewritten to id 9. -/
def envAncB : StoreEnv := { envAncA with rebaseReport := [(3, .rewritten 9)] }

theorem moveHunk_source_ancestor_of_destination_witness :
    moveHunkExec envAncA argsW = some ⟨.error .descendantNotFound,
      moveHead envAncA argsW [120, 10, 122, 10] ++ moveSourceOps envAncA argsW [120, 10, 122, 10] ++
        [.rebaseDescendantsWithMap envAncA.rebaseReport], false⟩ ∧
    moveHunkExec envAncB argsW = some ⟨.ok (finishResult envAncB),
      moveHead envAncB argsW [120, 10, 122, 10] ++ moveSourceOps envAncB argsW [120, 10, 122, 10] ++
        [.rebaseDescendantsWithMap envAncB.rebaseReport,
         .rewriteCommit (envAncB.rebasedCommit (rebasedId (.rewritten 9))).cid
           (envAncB.merge (envAncB.rebasedCommit (rebasedId (.rewritten 9))).tree
             (moveBaseTree argsW) (moveSibling envAncB argsW [120, 10, 122, 10]))
           (some (moveDescription envAncB argsW [120, 10, 122, 10])),
         .rebaseDescendants], true⟩ :=
  ⟨(moveHunk_source_ancestor_of_destination envAncA argsW [120, 10, 122, 10]
      rfl rfl rfl rfl rfl).1 rfl,
   (moveHunk_source_ancestor_of_destination envAncB argsW [120, 10, 122, 10]
      rfl rfl rfl rfl rfl).2 (.rewritten 9) rfl⟩

/-! ## C8 -/

/-- C8: in a successful move, the source is abandoned (never rewritten)
exactly when the remainder tree's id equals the base tree's id, and in that
case the single description-carrying rewrite of the destination sets the
concatenation of the destination's then the source's descriptions joined by
a newline, each defaulting to the other when empty; otherwise the source is
rewritten with the remainder tree (never abandoned) and every
description-carrying rewrite keeps the destination's own description. -/
theorem moveHunk_abandon_rule
    (env : StoreEnv) (a : MoveArgs) (sc : List Nat) (run : MutationRun)
    (himm : (env.isImmutableC a.fromC.cid || env.isImmutableC a.toC.cid) = false)
    (hpar : a.fromParents.length = 1)
    (happ : apply_hunk_to_base (moveBaseTree a).fileContent a.hunk = some (.ok sc))
    (hrun : moveHunkExec env a = some run)
    (hok : ∃ r, run.result = .ok r) :
    ((moveRemainder env a sc).tid = (moveBaseTree a).tid →
      TxOp.recordAbandoned a.fromC.cid ∈ run.trace ∧
      (∀ t : Tree, TxOp.rewriteCommit a.fromC.cid t none ∉ run.trace) ∧
      (∃ c t, TxOp.rewriteCommit c t
        (some (combine_messages a.fromC a.toC true)) ∈ run.trace) ∧
      (∀ c t d, TxOp.rewriteCommit c t (some d) ∈ run.trace →
        d = (if a.fromC.desc = "" then a.toC.desc
             else if a.toC.desc = "" then a.fromC.desc
             else a.toC.desc ++ "\n" ++ a.fromC.desc))) ∧
    ((moveRemainder env a sc).tid ≠ (moveBaseTree a).tid →
      TxOp.rewriteCommit a.fromC.cid (moveRemainder env a sc) none ∈ run.trace ∧
      TxOp.recordAbandoned a.fromC.cid ∉ run.trace ∧
      (∀ c t d, TxOp.rewriteCommit c t (some d) ∈ run.trace → d = a.toC.desc)) := by
  have hbr : moveBranch env a sc = run := by
    have h := hrun
    simp [moveHunkExec, himm, hpar, happ] at h
    exact h
  subst hbr
  constructor
  · intro h
    have hab : moveAbandon env a sc = true := by simp [moveAbandon, h]
    by_cases h1 : env.isAncestor a.toC.cid a.fromC.cid
    · refine ⟨?_, ?_, ⟨a.toC.cid, moveNewToTree env a sc, ?_⟩, ?_⟩ <;>
        simp [moveBranch, h1, moveHead, moveSourceOps, hab, moveDescription,
          combine_messages]
    · by_cases h2 : env.isAncestor a.fromC.cid a.toC.cid
      · rcases hl : env.rebaseReport.lookup a.toC.cid with _ | rb
        · exfalso
          rcases hok with ⟨r, hr⟩
          simp [moveBranch, h1, h2, hl] at hr
        · refine ⟨?_, ?_, ⟨(env.rebasedCommit (rebasedId rb)).cid,
            env.merge (env.rebasedCommit (rebasedId rb)).tree (moveBaseTree a)
              (moveSibling env a sc), ?_⟩, ?_⟩ <;>
            simp [moveBranch, h1, h2, hl, moveHead, moveSourceOps, hab,
              moveDescription, combine_messages]
      · refine ⟨?_, ?_, ⟨a.toC.cid, moveNewToTree env a sc, ?_⟩, ?_⟩ <;>
          simp [moveBranch, h1, h2, moveHead, moveSourceOps, hab, moveDescription,
            combine_messages]
  · intro h
    have hab : moveAbandon env a sc = false := by simp [moveAbandon, h]
    by_cases h1 : env.isAncestor a.toC.cid a.fromC.cid
    · refine ⟨?_, ?_, ?_⟩ <;>
        simp [moveBranch, h1, moveHead, moveSourceOps, hab, moveDescription,
          combine_messages]
    · by_cases h2 : env.isAncestor a.fromC.cid a.toC.cid
      · rcases hl : env.rebaseReport.lookup a.toC.cid with _ | rb
        · exfalso
          rcases hok with ⟨r, hr⟩
          simp [moveBranch, h1, h2, hl] at hr
        · refine ⟨?_, ?_, ?_⟩ <;>
            simp [moveBranch, h1, h2, hl, moveHead, moveSourceOps, hab,
              moveDescription, combine_messages]
      · refine ⟨?_, ?_, ?_⟩ <;>
          simp [moveBranch, h1, h2, moveHead, moveSourceOps, hab, moveDescription,
            combine_messages]

/-- An environment whose three-way merge returns the base argument, so that
the remainder equals the base and the source is abandoned. -/
def envAb : StoreEnv := { envW with merge := fun _ _ b => b }

def scW : List Nat := [120, 10, 122, 10]

theorem moveHunk_abandon_rule_witness :
    TxOp.recordAbandoned argsW.fromC.cid ∈ (moveBranch envAb argsW scW).trace ∧
    TxOp.rewriteCommit argsW.fromC.cid (moveRemainder envW argsW scW) none ∈
      (moveBranch envW argsW scW).trace :=
  ⟨((moveHunk_abandon_rule envAb argsW scW (moveBranch envAb argsW scW)
      rfl rfl rfl rfl ⟨.updated, rfl⟩).1 rfl).1,
   ((moveHunk_abandon_rule envW argsW scW (moveBranch envW argsW scW)
      rfl rfl rfl rfl ⟨.updated, rfl⟩).2 (by decide)).1⟩

/-! ## C2 -/

/-- The validation scan returns `none` exactly on equal lists (given equal
lengths). -/
theorem firstDiff_none_iff : ∀ (es bs : List (List Nat)) (k : Nat),
    es.length = bs.length → (firstDiff es bs k = none ↔ es = bs)
  | [], [], _, _ => by simp [firstDiff]
  | [], _ :: _, _, h => by simp at h
  | _ :: _, [], _, h => by simp at h
  | e :: es, b :: bs, k, h => by
    by_cases he : e = b
    · subst he
      have ih := firstDiff_none_iff es bs (k + 1) (by simpa using h)
      simp [firstDiff, ih]
    · simp [firstDiff, he]

/-- The validation scan reports the first diverging index: the two lists hold
the reported values there, they differ, and all earlier positions agree. -/
theorem firstDiff_some_spec : ∀ (es bs : List (List Nat)) (k i : Nat) (e b : List Nat),
    firstDiff es bs k = some (i, e, b) →
    k ≤ i ∧ es[i - k]? = some e ∧ bs[i - k]? = some b ∧ e ≠ b ∧
      ∀ j, j < i - k → es[j]? = bs[j]?
  | [], [], k, i, e, b, h => by simp [firstDiff] at h
  | [], _ :: _, k, i, e, b, h => by simp [firstDiff] at h
  | _ :: _, [], k, i, e, b, h => by simp [firstDiff] at h
  | e' :: es, b' :: bs, k, i, e, b, h => by
    by_cases he : e' = b'
    · subst he
      have hrec : firstDiff es bs (k + 1) = some (i, e, b) := by
        simpa [firstDiff] using h
      have ih := firstDiff_some_spec es bs (k + 1) i e b hrec
      have hk : k + 1 ≤ i := ih.1
      have hsub : i - k = (i - (k + 1)) + 1 := by omega
      refine ⟨by omega, ?_, ?_, ih.2.2.2.1, ?_⟩
      · rw [hsub]
        simpa using ih.2.1
      · rw [hsub]
        simpa using ih.2.2.1
      · intro j hj
        match j with
        | 0 => simp
        | j + 1 =>
          have := ih.2.2.2.2 j (by omega)
          simpa using this
    · have h' : i = k ∧ e = e' ∧ b = b' := by
        simpa [firstDiff, he] using h.symm
      obtain ⟨hi, he2, hb2⟩ := h'
      subst hi
      subst he2
      subst hb2
      exact ⟨le_refl _, by simp, by simp, he, fun j hj => by omega⟩

/-- C2: for a copy-hunk whose destination passes the immutability, conflict
and bounds preconditions, any divergence between the hunk's captured
context-plus-added lines and the destination's current lines at the recorded
`to_file` offset - both sides compared after `trim_end` - is a hard error
(`Except.error`, not a `PreconditionError`): a count difference reports both
counts, a content difference reports the first diverging (1-based, file
relative) line index together with the expected and the actual line, and in
both cases the trace is empty (no blob, tree or commit written) and the
transaction is never committed. -/
theorem copyHunk_validation_hard_error (env : StoreEnv) (a : CopyArgs)
    (himm : env.isImmutableC a.toC.cid = false)
    (hconf : a.toC.tree.conflicted = false)
    (hbounds : copyToEnd a ≤ (copyToLines a).length) :
    ((expectedToLines a.hunk).length ≠ (actualToLines a).length →
      copyHunkExec env a =
        ⟨.error (.countMismatch (expectedToLines a.hunk).length (actualToLines a).length),
          [], false⟩) ∧
    ((expectedToLines a.hunk).length = (actualToLines a).length →
      expectedToLines a.hunk ≠ actualToLines a →
      ∃ i e act,
        (expectedToLines a.hunk)[i]? = some e ∧
        (actualToLines a)[i]? = some act ∧
        e ≠ act ∧
        (∀ j, j < i → (expectedToLines a.hunk)[j]? = (actualToLines a)[j]?) ∧
        copyHunkExec env a =
          ⟨.error (.lineMismatch (copyToStart a + i + 1) e act), [], false⟩) := by
  have hb : ¬ (copyToEnd a > (copyToLines a).length) := by omega
  constructor
  · intro hne
    simp [copyHunkExec, himm, hconf, hb, hne]
  · intro hlen hne
    have hfd : firstDiff (expectedToLines a.hunk) (actualToLines a) 0 ≠ none := by
      intro hcon
      exact hne ((firstDiff_none_iff _ _ 0 hlen).mp hcon)
    rcases hsome : firstDiff (expectedToLines a.hunk) (actualToLines a) 0 with _ | ⟨i, e, b⟩
    · exact absurd hsome hfd
    · have hspec := firstDiff_some_spec _ _ 0 i e b hsome
      refine ⟨i, e, b, by simpa using hspec.2.1, by simpa using hspec.2.2.1,
        hspec.2.2.2.1, fun j hj => by simpa using hspec.2.2.2.2 j (by omega), ?_⟩
      simp [copyHunkExec, himm, hconf, hb, hlen, hsome]

/-- A copy request whose hunk captured two lines but whose recorded range is
one line long. -/
def cargsCount : CopyArgs :=
  ⟨commitFromW, ⟨3, "dst", ⟨3, [97, 10], some false, false⟩⟩,
    ⟨⟨⟨1, 1⟩, ⟨1, 1⟩⟩, [[43, 97], [43, 98]]⟩⟩

/-- A copy request whose hunk captured line `b` where the destination now
holds line `a`. -/
def cargsLine : CopyArgs :=
  ⟨commitFromW, ⟨3, "dst", ⟨3, [97, 10], some false, false⟩⟩,
    ⟨⟨⟨1, 1⟩, ⟨1, 1⟩⟩, [[43, 98]]⟩⟩

theorem copyHunk_validation_hard_error_witness :
    copyHunkExec envW cargsCount = ⟨.error (.countMismatch 2 1), [], false⟩ ∧
    ∃ i e act, (expectedToLines cargsLine.hunk)[i]? = some e ∧
      (actualToLines cargsLine)[i]? = some act ∧ e ≠ act ∧
      (∀ j, j < i → (expectedToLines cargsLine.hunk)[j]? = (actualToLines cargsLine)[j]?) ∧
      copyHunkExec envW cargsLine =
        ⟨.error (.lineMismatch (copyToStart cargsLine + i + 1) e act), [], false⟩ := by
  constructor
  · exact (copyHunk_validation_hard_error envW cargsCount rfl rfl (by decide)).1 (by decide)
  · exact (copyHunk_validation_hard_error envW cargsLine rfl rfl (by decide)).2
      (by decide) (by decide)

/-! ## C5 -/

/-- C5 counterexample: the base is `"x \n"` (with a trailing space) and the
hunk's single context line is `" x"`, so the context line's content `"x"`
differs from the base's line `"x "` at the running offset. The claim as
stated requires a hunk-mismatch hard error for any line that is not equal to
the base's content, yet `apply_hunk_to_base` succeeds and keeps the base's
line: the verification compares the lines only after `trim_end` on both
sides. -/
theorem apply_hunk_trim_comparison_cex :
    (rustLines [120, 32, 10]).getD 0 [] ≠ ([32, 120] : List Nat).tail ∧
    apply_hunk_to_base [120, 32, 10] ⟨⟨⟨1, 1⟩, ⟨1, 1⟩⟩, [[32, 120]]⟩ =
      some (.ok [120, 32, 10]) := by
  constructor
  · decide
  · rfl

/-- Every line of a hunk carries one of the three tag bytes: context (32),
removed (45) or added (43). -/
def wellTagged (dls : List (List Nat)) : Bool :=
  dls.all fun dl =>
    decide (dl.head? = some 32 ∨ dl.head? = some 45 ∨ dl.head? = some 43)

/-- The spec's verification condition, with the trailing-whitespace amendment:
walking the hunk's tagged lines with a running offset into the base's lines,
every context or removed line must sit inside the base and match the base's
line at the exact running offset after `trim_end` on both sides; context and
removed lines advance the offset, added lines do not. -/
def trimMatchAt (L : List (List Nat)) : Nat → List (List Nat) → Bool
  | _, [] => true
  | s, dl :: rest =>
    if dl.head? = some 32 ∨ dl.head? = some 45 then
      decide (s < L.length ∧ trimEnd (L.getD s []) = trimEnd dl.tail) &&
        trimMatchAt L (s + 1) rest
    else trimMatchAt L s rest

/-- Number of base lines a hunk's tagged lines consume: its context and
removed lines. -/
def consumedCount (dls : List (List Nat)) : Nat :=
  (dls.filter fun dl => decide (dl.head? = some 32 ∨ dl.head? = some 45)).length

/-- The lines a valid hunk walk emits, positionally: a context line keeps the
base's copy at the running offset, a removed line is consumed without being
emitted, an added line is emitted with trailing newlines stripped. -/
def specWalkOut (L : List (List Nat)) : List (List Nat) → Nat → List (List Nat)
  | [], _ => []
  | dl :: rest, s =>
    if dl.head? = some 32 then L.getD s [] :: specWalkOut L rest (s + 1)
    else if dl.head? = some 45 then specWalkOut L rest (s + 1)
    else trimEndNl dl.tail :: specWalkOut L rest s

theorem trimMatchAt_cons_tag (L : List (List Nat)) (s : Nat) (dl : List Nat)
    (rest : List (List Nat)) (htag : dl.head? = some 32 ∨ dl.head? = some 45) :
    trimMatchAt L s (dl :: rest) =
      (decide (s < L.length ∧ trimEnd (L.getD s []) = trimEnd dl.tail) &&
        trimMatchAt L (s + 1) rest) := by
  simp only [trimMatchAt]
  rw [if_pos htag]

theorem trimMatchAt_cons_notag (L : List (List Nat)) (s : Nat) (dl : List Nat)
    (rest : List (List Nat)) (hntag : ¬ (dl.head? = some 32 ∨ dl.head? = some 45)) :
    trimMatchAt L s (dl :: rest) = trimMatchAt L s rest := by
  simp only [trimMatchAt]
  rw [if_neg hntag]

theorem consumedCount_cons_tag (dl : List Nat) (rest : List (List Nat))
    (htag : dl.head? = some 32 ∨ dl.head? = some 45) :
    consumedCount (dl :: rest) = 1 + consumedCount rest := by
  simp only [consumedCount, List.filter_cons]
  rw [if_pos (by simpa using htag)]
  simp [Nat.add_comm]

theorem consumedCount_cons_notag (dl : List Nat) (rest : List (List Nat))
    (hntag : ¬ (dl.head? = some 32 ∨ dl.head? = some 45)) :
    consumedCount (dl :: rest) = consumedCount rest := by
  simp only [consumedCount, List.filter_cons]
  rw [if_neg (by simpa using hntag)]

theorem hunkWalk_cons_match (L : List (List Nat)) (dl : List Nat)
    (rest : List (List Nat)) (idx : Nat)
    (htag : dl.head? = some 32 ∨ dl.head? = some 45)
    (hok : idx < L.length ∧ trimEnd (L.getD idx []) = trimEnd dl.tail) :
    hunkWalk L (dl :: rest) idx =
      match hunkWalk L rest (idx + 1) with
      | .ok (out, fin) =>
        .ok ((if dl.head? = some 32 then [L.getD idx []] else []) ++ out, fin)
      | .error e => .error e := by
  simp only [hunkWalk]
  rw [if_pos htag, if_pos hok]

theorem hunkWalk_cons_mismatch (L : List (List Nat)) (dl : List Nat)
    (rest : List (List Nat)) (idx : Nat)
    (htag : dl.head? = some 32 ∨ dl.head? = some 45)
    (hbad : ¬ (idx < L.length ∧ trimEnd (L.getD idx []) = trimEnd dl.tail)) :
    hunkWalk L (dl :: rest) idx =
      .error (.hunkMismatch (idx + 1) (trimEnd dl.tail)
        (((L.get? idx).map trimEnd).getD eofMark)) := by
  simp only [hunkWalk]
  rw [if_pos htag, if_neg hbad]

theorem hunkWalk_cons_added (L : List (List Nat)) (dl : List Nat)
    (rest : List (List Nat)) (idx : Nat)
    (hntag : ¬ (dl.head? = some 32 ∨ dl.head? = some 45))
    (h43 : dl.head? = some 43) :
    hunkWalk L (dl :: rest) idx =
      match hunkWalk L rest idx with
      | .ok (out, fin) => .ok (trimEndNl dl.tail :: out, fin)
      | .error e => .error e := by
  simp only [hunkWalk]
  rw [if_neg hntag, if_pos h43]

theorem hunkWalk_cons_malformed (L : List (List Nat)) (dl : List Nat)
    (rest : List (List Nat)) (idx : Nat)
    (hntag : ¬ (dl.head? = some 32 ∨ dl.head? = some 45))
    (hn43 : ¬ dl.head? = some 43) :
    hunkWalk L (dl :: rest) idx = .error (.malformedLine dl) := by
  simp only [hunkWalk]
  rw [if_neg hntag, if_neg hn43]

/-- The hunk walk succeeds exactly on well-tagged, trim-matching line lists;
on success it emits the positionally specified lines and consumes exactly the
context and removed lines; on failure the error is a hunk mismatch or a
malformed line, never anything else. -/
theorem hunkWalk_characterize (L : List (List Nat)) :
    ∀ (dls : List (List Nat)) (idx : Nat),
    ((∃ r, hunkWalk L dls idx = .ok r) ↔
      (wellTagged dls = true ∧ trimMatchAt L idx dls = true)) ∧
    (∀ out fin, hunkWalk L dls idx = .ok (out, fin) →
      out = specWalkOut L dls idx ∧ fin = idx + consumedCount dls) ∧
    (∀ e, hunkWalk L dls idx = .error e →
      (∃ n x y, e = .hunkMismatch n x y) ∨ (∃ l, e = .malformedLine l))
  | [], idx => by
    refine ⟨?_, ?_, ?_⟩
    · simp [hunkWalk, wellTagged, trimMatchAt]
    · intro out fin h
      simp only [hunkWalk, Except.ok.injEq, Prod.mk.injEq] at h
      exact ⟨by simp [specWalkOut, h.1.symm], by simp [consumedCount, h.2.symm]⟩
    · intro e h
      simp [hunkWalk] at h
  | dl :: rest, idx => by
    have ih := hunkWalk_characterize L rest
    by_cases htag : dl.head? = some 32 ∨ dl.head? = some 45
    · by_cases hok : idx < L.length ∧ trimEnd (L.getD idx []) = trimEnd dl.tail
      · rw [hunkWalk_cons_match L dl rest idx htag hok]
        have hwt : wellTagged (dl :: rest) = true ↔ wellTagged rest = true := by
          simp only [wellTagged, List.all_cons, Bool.and_eq_true, decide_eq_true_eq]
          constructor
          · exact fun h => h.2
          · exact fun h => ⟨by rcases htag with h' | h' <;> simp [h'], h⟩
        have htm := trimMatchAt_cons_tag L idx dl rest htag
        rcases hrec : hunkWalk L rest (idx + 1) with e' | ⟨out', fin'⟩
        · refine ⟨?_, ?_, ?_⟩
          · constructor
            · rintro ⟨r, hr⟩
              simp at hr
            · rintro ⟨hw, hm⟩
              rw [htm] at hm
              simp only [Bool.and_eq_true, decide_eq_true_eq] at hm
              obtain ⟨⟨out, fin⟩, hrec2⟩ := (ih (idx + 1)).1.mpr ⟨hwt.mp hw, hm.2⟩
              rw [hrec] at hrec2
              exact absurd hrec2 (by simp)
          · intro out fin h
            simp at h
          · intro e h
            simp only [Except.error.injEq] at h
            subst h
            exact (ih (idx + 1)).2.2 e' hrec
        · refine ⟨?_, ?_, ?_⟩
          · constructor
            · rintro ⟨r, hr⟩
              refine ⟨hwt.mpr ?_, ?_⟩
              · exact ((ih (idx + 1)).1.mp ⟨_, hrec⟩).1
              · rw [htm]
                simp only [Bool.and_eq_true, decide_eq_true_eq]
                exact ⟨hok, ((ih (idx + 1)).1.mp ⟨_, hrec⟩).2⟩
            · rintro ⟨-, -⟩
              exact ⟨_, rfl⟩
          · intro out fin h
            simp only [Except.ok.injEq, Prod.mk.injEq] at h
            obtain ⟨hih1, hih2⟩ := (ih (idx + 1)).2.1 out' fin' hrec
            constructor
            · rw [← h.1, hih1]
              by_cases h32 : dl.head? = some 32
              · simp only [specWalkOut]
                rw [if_pos h32, if_pos h32]
                simp
              · have h45 : dl.head? = some 45 := htag.resolve_left h32
                simp only [specWalkOut]
                rw [if_neg h32, if_neg h32, if_pos h45]
                simp
            · rw [← h.2, hih2, consumedCount_cons_tag dl rest htag]
              omega
          · intro e h
            simp at h
      · rw [hunkWalk_cons_mismatch L dl rest idx htag hok]
        refine ⟨?_, ?_, ?_⟩
        · constructor
          · rintro ⟨r, hr⟩
            simp at hr
          · rintro ⟨-, hm⟩
            rw [trimMatchAt_cons_tag L idx dl rest htag] at hm
            simp only [Bool.and_eq_true, decide_eq_true_eq] at hm
            exact absurd hm.1 hok
        · intro out fin h
          simp at h
        · intro e h
          simp only [Except.error.injEq] at h
          exact Or.inl ⟨_, _, _, h.symm⟩
    · by_cases h43 : dl.head? = some 43
      · rw [hunkWalk_cons_added L dl rest idx htag h43]
        have hwt : wellTagged (dl :: rest) = true ↔ wellTagged rest = true := by
          simp only [wellTagged, List.all_cons, Bool.and_eq_true, decide_eq_true_eq]
          constructor
          · exact fun h => h.2
          · exact fun h => ⟨by simp [h43], h⟩
        have htm := trimMatchAt_cons_notag L idx dl rest htag
        have h32 : ¬ dl.head? = some 32 := fun hc => htag (Or.inl hc)
        have h45 : ¬ dl.head? = some 45 := fun hc => htag (Or.inr hc)
        rcases hrec : hunkWalk L rest idx with e' | ⟨out', fin'⟩
        · refine ⟨?_, ?_, ?_⟩
          · constructor
            · rintro ⟨r, hr⟩
              simp at hr
            · rintro ⟨hw, hm⟩
              rw [htm] at hm
              obtain ⟨⟨out, fin⟩, hrec2⟩ := (ih idx).1.mpr ⟨hwt.mp hw, hm⟩
              rw [hrec] at hrec2
              exact absurd hrec2 (by simp)
          · intro out fin h
            simp at h
          · intro e h
            simp only [Except.error.injEq] at h
            subst h
            exact (ih idx).2.2 e' hrec
        · refine ⟨?_, ?_, ?_⟩
          · constructor
            · rintro ⟨r, hr⟩
              refine ⟨hwt.mpr ((ih idx).1.mp ⟨_, hrec⟩).1, ?_⟩
              rw [htm]
              exact ((ih idx).1.mp ⟨_, hrec⟩).2
            · rintro ⟨-, -⟩
              exact ⟨_, rfl⟩
          · intro out fin h
            simp only [Except.ok.injEq, Prod.mk.injEq] at h
            obtain ⟨hih1, hih2⟩ := (ih idx).2.1 out' fin' hrec
            constructor
            · rw [← h.1, hih1]
              simp only [specWalkOut]
              rw [if_neg h32, if_neg h45]
            · rw [← h.2, hih2, consumedCount_cons_notag dl rest htag]
          · intro e h
            simp at h
      · rw [hunkWalk_cons_malformed L dl rest idx htag h43]
        refine ⟨?_, ?_, ?_⟩
        · constructor
          · rintro ⟨r, hr⟩
            simp at hr
          · rintro ⟨hw, -⟩
            simp only [wellTagged, List.all_cons, Bool.and_eq_true, decide_eq_true_eq] at hw
            rcases hw.1 with h | h | h
            · exact (htag (Or.inl h)).elim
            · exact (htag (Or.inr h)).elim
            · exact (h43 h).elim
        · intro out fin h
          simp at h
        · intro e h
          simp only [Except.error.injEq] at h
          exact Or.inr ⟨_, h.symm⟩

/-- C5 (amended): during sibling reconstruction, provided the hunk's start
does not overrun the base (the panic-freedom precondition of C10),
`apply_hunk_to_base` succeeds exactly when every line is well-tagged and
every context or removed line equals the base's content at the exact running
offset after trailing-whitespace trimming on both sides; any mismatch or
unknown tag is a hard error (hunk mismatch or malformed line - never a
precondition error, which in this embedding is an `Except.ok` payload); on
success context lines keep the base's copy, removed lines are consumed
without being emitted, and added lines are emitted; and every branch of the
move writes the sibling tree built from the base with the source tree's
executable bit at the path. -/
theorem apply_hunk_verification_amended (base : List Nat) (hunk : ChangeHunk)
    (hb : hunk.location.from_file.start - 1 ≤ (rustLines base).length) :
    ((∃ c, apply_hunk_to_base base hunk = some (.ok c)) ↔
      (wellTagged hunk.lines = true ∧
        trimMatchAt (rustLines base) (hunk.location.from_file.start - 1) hunk.lines = true)) ∧
    (∀ c, apply_hunk_to_base base hunk = some (.ok c) →
      c = finishContent
        ((rustLines base).take (hunk.location.from_file.start - 1) ++
          specWalkOut (rustLines base) hunk.lines (hunk.location.from_file.start - 1) ++
          (rustLines base).drop (hunk.location.from_file.start - 1 + consumedCount hunk.lines))
        (endsWithNl base)) ∧
    (∀ e, apply_hunk_to_base base hunk = some (.error e) →
      (∃ n x y, e = .hunkMismatch n x y) ∨ (∃ l, e = .malformedLine l)) ∧
    (∀ (env : StoreEnv) (a : MoveArgs) (sc : List Nat),
      TxOp.writeTree
        (env.updateTree (moveBaseTree a) sc (a.fromC.tree.fileExec.getD false)) ∈
        (moveBranch env a sc).trace) := by
  have hnb : ¬ (hunk.location.from_file.start - 1 > (rustLines base).length) := by omega
  have hch := hunkWalk_characterize (rustLines base) hunk.lines
    (hunk.location.from_file.start - 1)
  refine ⟨?_, ?_, ?_, ?_⟩
  · constructor
    · rintro ⟨c, hc⟩
      simp only [apply_hunk_to_base] at hc
      rw [if_neg hnb] at hc
      rcases hw : hunkWalk (rustLines base) hunk.lines (hunk.location.from_file.start - 1)
        with e | ⟨out, fin⟩ <;> rw [hw] at hc
      · simp at hc
      · exact hch.1.mp ⟨_, hw⟩
    · rintro ⟨hwt, hm⟩
      obtain ⟨⟨out, fin⟩, hw⟩ := hch.1.mpr ⟨hwt, hm⟩
      refine ⟨finishContent
        ((rustLines base).take (hunk.location.from_file.start - 1) ++ out ++
          (rustLines base).drop fin) (endsWithNl base), ?_⟩
      simp only [apply_hunk_to_base]
      rw [if_neg hnb, hw]
  · intro c hc
    simp only [apply_hunk_to_base] at hc
    rw [if_neg hnb] at hc
    rcases hw : hunkWalk (rustLines base) hunk.lines (hunk.location.from_file.start - 1)
      with e | ⟨out, fin⟩ <;> rw [hw] at hc
    · simp at hc
    · simp only [Option.some.injEq, Except.ok.injEq] at hc
      obtain ⟨h1, h2⟩ := hch.2.1 out fin hw
      rw [← hc, h1, h2]
  · intro e hc
    simp only [apply_hunk_to_base] at hc
    rw [if_neg hnb] at hc
    rcases hw : hunkWalk (rustLines base) hunk.lines (hunk.location.from_file.start - 1)
      with e' | ⟨out, fin⟩ <;> rw [hw] at hc
    · simp only [Option.some.injEq, Except.error.injEq] at hc
      subst hc
      exact hch.2.2 e' hw
    · simp at hc
  · intro env a sc
    unfold moveBranch
    by_cases h1 : env.isAncestor a.toC.cid a.fromC.cid
    · simp [h1, moveHead, moveSibling]
    · by_cases h2 : env.isAncestor a.fromC.cid a.toC.cid
      · cases hl : env.rebaseReport.lookup a.toC.cid <;>
          simp [h1, h2, hl, moveHead, moveSibling]
      · simp [h1, h2, moveHead, moveSibling]

theorem apply_hunk_verification_amended_witness :
    ∃ c, apply_hunk_to_base [120, 10, 121, 10] hunkW = some (.ok c) :=
  (apply_hunk_verification_amended [120, 10, 121, 10] hunkW (by decide)).1.mpr (by decide)

/-! ## C3 -/

/-- C3 counterexample: with page size 1, commit 1's missing-boundary
connector consumes the page's only row and the extra boundary row, stepping
the row counter from 0 straight to 2 and skipping the limit 1; the loop's
exact `row == max` check therefore never fires, and commit 3's row is also
emitted: two output rows (three counted rows) on a page of size 1, after
which the iterator is fully drained. -/
theorem get_page_overshoot_cex :
    (get_page ⟨0, fun _ => false⟩ ⟨1, 0, []⟩
        [(1, [⟨2, .missing⟩]), (3, [])]).1.rows.length = 2 ∧
    (get_page ⟨0, fun _ => false⟩ ⟨1, 0, []⟩
        [(1, [⟨2, .missing⟩]), (3, [])]).2.1.next_row = 3 := by
  exact ⟨rfl, rfl⟩

/-- The page loop stops only by exhausting the iterator or by an iteration
whose final row counter equals the limit exactly. -/
theorem getPageLoop_stop (env : LayoutEnv) (maxRow : Nat) :
    ∀ (input : List (Nat × List GraphEdge)) (row : Nat) (stems : List (Option LogStem)),
      (getPageLoop env maxRow input row stems).remaining = [] ∨
      (getPageLoop env maxRow input row stems).finalRow = maxRow
  | [], _, _ => Or.inl rfl
  | (cid, edges) :: rest, row, stems => by
    simp only [getPageLoop]
    by_cases h : (processCommit env row stems cid edges).nextRow = maxRow
    · rw [if_pos h]
      exact Or.inr h
    · rw [if_neg h]
      exact getPageLoop_stop env maxRow rest _ _

/-- C3 (amended): `get_page` stops emitting when an iteration's row counter
(counting the extra row a missing-boundary connector consumes) is exactly
`next_row + page_size`, or when the commit iterator is exhausted - after the
call, either no input remains or the stored row counter equals that limit
exactly; since the boundary connector advances the counter by two, the
counter can skip the limit, in which case rows keep being emitted until the
iterator is exhausted (see the counterexample); `has_more` is true exactly
when the iterator has a further element after the call. -/
theorem get_page_stop_amended (env : LayoutEnv) (st : QueryState)
    (input : List (Nat × List GraphEdge)) :
    ((get_page env st input).2.2 = [] ∨
      (get_page env st input).2.1.next_row = st.next_row + st.page_size) ∧
    ((get_page env st input).1.has_more = true ↔ (get_page env st input).2.2 ≠ []) := by
  refine ⟨getPageLoop_stop env (st.next_row + st.page_size) input st.next_row st.stems, ?_⟩
  simp [get_page]

/-! ## C4 -/

/-- C4 counterexample: one commit with two non-root missing edges. The
traversal completes (no input remains), yet the final stem array still holds
the first missing edge's stem and ends in an empty slot: the row's
missing-boundary clear blanked the last slot after the trim had already run,
and only one pending missing target is remembered per row, so the other
stem's target never arrives. Both invariant conjuncts of the claim fail. -/
theorem stems_trailing_empty_cex :
    (get_page ⟨0, fun _ => false⟩ ⟨5, 0, []⟩
        [(1, [⟨2, .missing⟩, ⟨3, .missing⟩])]).2.2 = [] ∧
    (get_page ⟨0, fun _ => false⟩ ⟨5, 0, []⟩
        [(1, [⟨2, .missing⟩, ⟨3, .missing⟩])]).2.1.stems.getLast? = some none ∧
    (get_page ⟨0, fun _ => false⟩ ⟨5, 0, []⟩
        [(1, [⟨2, .missing⟩, ⟨3, .missing⟩])]).2.1.stems ≠ [] := by
  refine ⟨rfl, rfl, by decide⟩

theorem dropWhile_isNone_head (l : List (Option LogStem)) :
    (l.dropWhile Option.isNone).head? ≠ some none := by
  induction l with
  | nil => simp
  | cons a l ih =>
    rw [List.dropWhile_cons]
    by_cases ha : a.isNone = true
    · rw [if_pos ha]
      exact ih
    · rw [if_neg ha]
      intro hc
      simp only [List.head?_cons, Option.some.injEq] at hc
      exact ha (by simp [hc])

/-- The trailing-stem trim leaves an array that does not end in an empty
slot. -/
theorem trimStems_noTrailing (s : List (Option LogStem)) :
    (trimStems s).getLast? ≠ some none := by
  unfold trimStems
  rw [List.getLast?_reverse]
  exact dropWhile_isNone_head s.reverse

/-- Writing a full slot cannot make the stem array end in an empty slot. -/
theorem noTrailing_set_some (s : List (Option LogStem)) (i : Nat) (v : LogStem)
    (h : s.getLast? ≠ some none) : (s.set i (some v)).getLast? ≠ some none := by
  induction s using List.reverseRecOn with
  | nil => exact h
  | append_singleton t x _ =>
    rw [List.set_append]
    by_cases hi : i < t.length
    · rw [if_pos hi]
      rw [List.getLast?_concat] at h ⊢
      exact h
    · rw [if_neg hi]
      rcases hd : i - t.length with _ | j
      · rw [show ([x].set 0 (some v)) = [some v] from rfl, List.getLast?_concat]
        simp
      · rw [show ([x].set (j + 1) (some v)) = [x] from rfl]
        exact h

/-- The per-edge body preserves the no-trailing-empty-slot invariant: it only
fills a slot with a stem, appends a stem, or leaves the array unchanged. -/
theorem edgeStep_noTrailing (column row : Nat) (headerImm : Bool) (e : GraphEdge)
    (st1 : EdgeState) (h : st1.stems.getLast? ≠ some none) :
    (edgeStep column row headerImm e st1).stems.getLast? ≠ some none := by
  unfold edgeStep
  rcases hf : find_stem_for_commit st1.stems e.target with _ | slot
  · rcases hn : st1.stems.findIdx? Option.isNone with _ | slot
    · simp [List.getLast?_concat]
    · exact noTrailing_set_some st1.stems slot _ h
  · exact h

theorem processEdges_noTrailing (env : LayoutEnv) (column row : Nat) (hi : Bool) :
    ∀ (edges : List GraphEdge) (st : EdgeState),
      st.stems.getLast? ≠ some none →
      (processEdges env column row hi edges st).stems.getLast? ≠ some none
  | [], _, h => h
  | e :: es, st, h => by
    simp only [processEdges]
    by_cases hroot : e.edge_type = .missing ∧ e.target = env.rootId
    · rw [if_pos hroot]
      exact processEdges_noTrailing env column row hi es st h
    · rw [if_neg hroot]
      refine processEdges_noTrailing env column row hi es _ ?_
      refine edgeStep_noTrailing column row hi e _ ?_
      by_cases hm : e.edge_type = .missing
      · rw [if_pos hm]
        exact h
      · rw [if_neg hm]
        exact h

/-- Bound for the slot index the missing-boundary clear writes. -/
theorem findIdx?_lt_length {α : Type} (p : α → Bool) :
    ∀ (l : List α) (i : Nat), l.findIdx? p = some i → i < l.length
  | [], i, h => by simp [List.findIdx?] at h
  | a :: l, i, h => by
    rw [List.findIdx?_cons] at h
    by_cases ha : p a
    · simp [ha] at h
      simp only [List.length_cons]
      omega
    · simp [ha] at h
      obtain ⟨j, hj, hji⟩ := h
      have := findIdx?_lt_length p l j hj
      simp only [List.length_cons]
      omega

/-- The missing-boundary step leaves the stem array unchanged or clears
exactly one in-bounds slot. -/
theorem missingPhase_stems (cid row : Nat) (t : TermOut) (es : EdgeState) (imm : Bool) :
    (missingPhase cid row t es imm).stems = es.stems ∨
    ∃ slot, slot < es.stems.length ∧
      (missingPhase cid row t es imm).stems = es.stems.set slot none := by
  unfold missingPhase
  rcases hm : es.nextMissing.bind (fun id => find_stem_for_commit es.stems id) with _ | slot
  · exact Or.inl rfl
  · refine Or.inr ⟨slot, ?_, rfl⟩
    rcases ho : es.nextMissing with _ | id
    · rw [ho] at hm
      simp at hm
    · rw [ho] at hm
      simp only [Option.some_bind] at hm
      exact findIdx?_lt_length _ _ slot hm

/-- C4 (amended): after the edge-merge phase of every row the stem array
never ends in an empty (`none`) slot - the trailing trim runs before the
edges are merged, and merging only fills or appends slots - so at that point
the rendered width equals the current concurrent branch count; the optional
missing-boundary step then either leaves the array unchanged or clears
exactly one in-bounds slot (possibly the last one, which is what the
counterexample exhibits and what the next row's trim removes); the claim's
further assertion that the stem array is empty after a full traversal does
not hold in general, because only one pending missing-edge target is
remembered per row. -/
theorem stems_invariant_amended (env : LayoutEnv) (row : Nat)
    (stems : List (Option LogStem)) (cid : Nat) (edges : List GraphEdge) :
    ((afterEdges env row stems cid edges).2.1.stems.getLast? ≠ some none) ∧
    ((processCommit env row stems cid edges).stems =
        (afterEdges env row stems cid edges).2.1.stems ∨
      ∃ slot, slot < (afterEdges env row stems cid edges).2.1.stems.length ∧
        (processCommit env row stems cid edges).stems =
          (afterEdges env row stems cid edges).2.1.stems.set slot none) := by
  constructor
  · show (processEdges env _ row _ edges
      ⟨trimStems (terminatePhase stems cid row).stems, [], none⟩).stems.getLast? ≠ some none
    exact processEdges_noTrailing env _ row _ edges _ (trimStems_noTrailing _)
  · exact missingPhase_stems cid row (afterEdges env row stems cid edges).1
      (afterEdges env row stems cid edges).2.1 (afterEdges env row stems cid edges).2.2

/-! ## C9 -/

/-- Whether a byte buffer contains a CRLF (13, 10) pair. `str::lines` treats
CRLF as a line ending and strips the CR, so such buffers do not survive the
split-and-rejoin of `CopyHunk::execute` byte for byte. -/
def hasCRLF : List Nat → Bool
  | [] => false
  | [_] => false
  | a :: b :: t => (a == 13 && b == 10) || hasCRLF (b :: t)

/-- Render a line list with every line newline-terminated. -/
def nlTerm (L : List (List Nat)) : List Nat :=
  (L.map (fun l => l ++ [10])).flatten

theorem splitNl_ne_nil (c : List Nat) : splitNl c ≠ [] := by
  cases c with
  | nil => simp [splitNl]
  | cons b bs =>
    simp only [splitNl]
    by_cases h : b = 10
    · rw [if_pos h]
      simp
    · rw [if_neg h]
      rcases splitNl bs with _ | ⟨l, ls⟩ <;> simp

/-- Splitting at newlines and rejoining with newlines is the identity. -/
theorem joinNl_splitNl : ∀ (c : List Nat), joinNl (splitNl c) = c
  | [] => rfl
  | b :: bs => by
    have ih := joinNl_splitNl bs
    simp only [splitNl]
    by_cases h : b = 10
    · rw [if_pos h]
      rcases hs : splitNl bs with _ | ⟨l, ls⟩
      · exact absurd hs (splitNl_ne_nil bs)
      · rw [hs] at ih
        simp only [joinNl]
        rw [ih, h]
        rfl
    · rw [if_neg h]
      rcases hs : splitNl bs with _ | ⟨l, ls⟩
      · exact absurd hs (splitNl_ne_nil bs)
      · rw [hs] at ih
        rcases ls with _ | ⟨y, ys⟩
        · simp only [joinNl] at ih ⊢
          rw [ih]
        · simp only [joinNl] at ih ⊢
          rw [List.cons_append, ih]

theorem joinNl_cons_of_ne_nil (x : List Nat) (t : List (List Nat)) (h : t ≠ []) :
    joinNl (x :: t) = x ++ 10 :: joinNl t := by
  rcases t with _ | ⟨y, ys⟩
  · exact absurd rfl h
  · rfl

theorem nlTerm_append (X Y : List (List Nat)) :
    nlTerm (X ++ Y) = nlTerm X ++ nlTerm Y := by
  simp [nlTerm]

theorem joinNl_append (X Y : List (List Nat)) (hY : Y ≠ []) :
    joinNl (X ++ Y) = nlTerm X ++ joinNl Y := by
  induction X with
  | nil => simp [nlTerm]
  | cons x X ih =>
    have hXY : X ++ Y ≠ [] := by
      rcases Y with _ | _
      · exact absurd rfl hY
      · simp
    rw [List.cons_append, joinNl_cons_of_ne_nil x (X ++ Y) hXY, ih]
    simp [nlTerm]

theorem nlTerm_eq_joinNl_append : ∀ (X : List (List Nat)), X ≠ [] →
    nlTerm X = joinNl X ++ [10]
  | [], h => absurd rfl h
  | [x], _ => by simp [nlTerm, joinNl]
  | x :: y :: t, _ => by
    have ih := nlTerm_eq_joinNl_append (y :: t) (by simp)
    rw [joinNl_cons_of_ne_nil x (y :: t) (by simp)]
    have hx : nlTerm (x :: y :: t) = x ++ [10] ++ nlTerm (y :: t) := by
      simp [nlTerm]
    rw [hx, ih]
    simp

theorem splitNl_no_nl : ∀ (c l : List Nat), l ∈ splitNl c → 10 ∉ l
  | [], l, hl => by
    simp [splitNl] at hl
    simp [hl]
  | b :: bs, l, hl => by
    simp only [splitNl] at hl
    by_cases h : b = 10
    · rw [if_pos h] at hl
      rw [List.mem_cons] at hl
      rcases hl with hl | hl
      · simp [hl]
      · exact splitNl_no_nl bs l hl
    · rw [if_neg h] at hl
      rcases hs : splitNl bs with _ | ⟨x, xs⟩
      · exact absurd hs (splitNl_ne_nil bs)
      · rw [hs] at hl
        rw [List.mem_cons] at hl
        rcases hl with hl | hl
        · subst hl
          intro hmem
          rw [List.mem_cons] at hmem
          rcases hmem with hmem | hmem
          · exact h hmem.symm
          · exact splitNl_no_nl bs x (by rw [hs]; exact List.mem_cons_self x xs) hmem
        · exact splitNl_no_nl bs l (by rw [hs]; exact List.mem_cons_of_mem x hl)

theorem stripCr_no_nl (l : List Nat) (h : 10 ∉ l) : 10 ∉ stripCr l := by
  unfold stripCr
  by_cases hc : l.getLast? = some 13
  · rw [if_pos hc]
    intro hm
    exact h (List.dropLast_subset l hm)
  · rw [if_neg hc]
    exact h

theorem getLastD_mem : ∀ (xs : List (List Nat)) (x d : List Nat),
    (x :: xs).getLastD d ∈ x :: xs
  | [], x, d => by simp [List.getLastD_cons, List.getLastD]
  | y :: ys, x, d => by
    rw [List.getLastD_cons]
    exact List.mem_cons_of_mem x (getLastD_mem ys y x)

theorem rustLines_no_nl (c : List Nat) : ∀ l ∈ rustLines c, 10 ∉ l := by
  intro l hl
  unfold rustLines at hl
  by_cases h : (splitNl c).getLast? = some []
  · rw [if_pos h] at hl
    obtain ⟨x, hx, hlx⟩ := List.mem_map.mp hl
    subst hlx
    exact stripCr_no_nl x (splitNl_no_nl c x (List.dropLast_subset _ hx))
  · rw [if_neg h] at hl
    rcases List.mem_append.mp hl with hm | hm
    · obtain ⟨x, hx, hlx⟩ := List.mem_map.mp hm
      subst hlx
      exact stripCr_no_nl x (splitNl_no_nl c x (List.dropLast_subset _ hx))
    · rw [List.mem_singleton.mp hm]
      rcases hs : splitNl c with _ | ⟨x, xs⟩
      · exact absurd hs (splitNl_ne_nil c)
      · exact splitNl_no_nl c _ (by rw [hs]; exact getLastD_mem xs x [])

theorem stripCr_cons (b : Nat) (l : List Nat) (h : l ≠ [] ∨ b ≠ 13) :
    stripCr (b :: l) = b :: stripCr l := by
  rcases l with _ | ⟨x, t⟩
  · rcases h with h | h
    · exact absurd rfl h
    · unfold stripCr
      rw [if_neg (by simp [h]), if_neg (by simp)]
  · unfold stripCr
    have hlast : (b :: x :: t).getLast? = (x :: t).getLast? := List.getLast?_cons_cons
    by_cases hc : (x :: t).getLast? = some 13
    · rw [if_pos (by rw [hlast]; exact hc), if_pos hc]
      rfl
    · rw [if_neg (by rw [hlast]; exact hc), if_neg hc]

theorem splitNl_cons_nl (bs : List Nat) : splitNl (10 :: bs) = [] :: splitNl bs := by
  simp [splitNl]

theorem splitNl_cons_ne (b : Nat) (bs : List Nat) (h : b ≠ 10) (l : List Nat)
    (ls : List (List Nat)) (hs : splitNl bs = l :: ls) :
    splitNl (b :: bs) = (b :: l) :: ls := by
  simp only [splitNl]
  rw [if_neg h, hs]

theorem splitNl_head_empty (bs : List Nat) (fs : List (List Nat))
    (hsf : splitNl bs = [] :: fs) : bs = [] ∨ bs.head? = some 10 := by
  rcases bs with _ | ⟨x, t⟩
  · exact Or.inl rfl
  · by_cases hx : x = 10
    · exact Or.inr (by simp [hx])
    · exfalso
      rcases ht : splitNl t with _ | ⟨y, ys⟩
      · exact absurd ht (splitNl_ne_nil t)
      · have hc := splitNl_cons_ne x t hx y ys ht
        rw [hc] at hsf
        simp at hsf

theorem rustLines_ne_nil (c : List Nat) (h : c ≠ []) : rustLines c ≠ [] := by
  unfold rustLines
  rcases hs : splitNl c with _ | ⟨x, xs⟩
  · exact absurd hs (splitNl_ne_nil c)
  · by_cases hlast : (x :: xs).getLast? = some []
    · rw [if_pos hlast]
      rcases xs with _ | ⟨y, ys⟩
      · exfalso
        apply h
        have hx : x = [] := by simpa using hlast
        have hj := joinNl_splitNl c
        rw [hs, hx] at hj
        simpa [joinNl] using hj.symm
      · simp
    · rw [if_neg hlast]
      simp

theorem rustLines_cons_nl (bs : List Nat) : rustLines (10 :: bs) = [] :: rustLines bs := by
  unfold rustLines
  rw [splitNl_cons_nl]
  rcases hs : splitNl bs with _ | ⟨x, xs⟩
  · exact absurd hs (splitNl_ne_nil bs)
  · have hlast : ([] :: x :: xs).getLast? = (x :: xs).getLast? := List.getLast?_cons_cons
    by_cases hc : (x :: xs).getLast? = some []
    · rw [if_pos (by rw [hlast]; exact hc), if_pos hc]
      simp [stripCr]
    · rw [if_neg (by rw [hlast]; exact hc), if_neg hc]
      simp [List.getLastD_cons, stripCr]

theorem rustLines_cons_ne (b : Nat) (bs : List Nat) (hb : b ≠ 10) (l : List Nat)
    (ls : List (List Nat)) (hrl : rustLines bs = l :: ls)
    (hcr : ¬ (b = 13 ∧ bs.head? = some 10)) :
    rustLines (b :: bs) = (b :: l) :: ls := by
  rcases hsf : splitNl bs with _ | ⟨f, fs⟩
  · exact absurd hsf (splitNl_ne_nil bs)
  · have hsplit := splitNl_cons_ne b bs hb f fs hsf
    unfold rustLines at hrl ⊢
    rw [hsplit]
    rw [hsf] at hrl
    rcases fs with _ | ⟨g, gs⟩
    · have hf : f ≠ [] := by
        intro hfe
        subst hfe
        have hj := joinNl_splitNl bs
        rw [hsf] at hj
        simp only [joinNl] at hj
        simp at hrl
      rw [if_neg (by simpa using hf)] at hrl
      rw [if_neg (by simp)]
      simp only [List.dropLast_single, List.map_nil, List.nil_append,
        List.getLastD_cons, List.getLastD] at hrl ⊢
      obtain ⟨h1, h2⟩ := List.cons_eq_cons.mp hrl
      subst h1
      subst h2
      rfl
    · have hstrip : stripCr (b :: f) = b :: stripCr f := by
        apply stripCr_cons
        rcases hfe : f with _ | _
        · right
          intro hb13
          rcases splitNl_head_empty bs (g :: gs) (by rw [hsf, hfe]) with he | hh
          · rw [he] at hsf
            simp [splitNl] at hsf
          · exact hcr ⟨hb13, hh⟩
        · left
          simp
      have hlast : ((b :: f) :: g :: gs).getLast? = (f :: g :: gs).getLast? := by
        rw [List.getLast?_cons_cons, List.getLast?_cons_cons]
      by_cases hc : (f :: g :: gs).getLast? = some []
      · rw [if_pos hc] at hrl
        rw [if_pos (by rw [hlast]; exact hc)]
        simp only [List.dropLast_cons₂, List.map_cons] at hrl ⊢
        obtain ⟨h1, h2⟩ := List.cons_eq_cons.mp hrl
        rw [hstrip, h1, h2]
      · rw [if_neg hc] at hrl
        rw [if_neg (by rw [hlast]; exact hc)]
        simp only [List.dropLast_cons₂, List.map_cons, List.cons_append,
          List.getLastD_cons] at hrl ⊢
        obtain ⟨h1, h2⟩ := List.cons_eq_cons.mp hrl
        rw [hstrip, h1, h2]

theorem hasCRLF_tail (a : Nat) (t : List Nat) (h : hasCRLF (a :: t) = false) :
    hasCRLF t = false := by
  rcases t with _ | ⟨b, t'⟩
  · rfl
  · simp only [hasCRLF, Bool.or_eq_false_iff] at h
    exact h.2

theorem hasCRLF_head (b : Nat) (bs : List Nat) (h : hasCRLF (b :: bs) = false) :
    ¬ (b = 13 ∧ bs.head? = some 10) := by
  rintro ⟨hb, hh⟩
  rcases bs with _ | ⟨x, t⟩
  · simp at hh
  · simp only [List.head?_cons, Option.some.injEq] at hh
    subst hb
    subst hh
    simp [hasCRLF] at h

/-- For CRLF-free content, `str::lines` is inverted exactly by rejoining
with `\n` separators and restoring the trailing newline when the buffer had
one: the worker's split-and-reassemble round trip is byte-faithful on such
buffers. -/
theorem rustLines_reassemble : ∀ (c : List Nat), hasCRLF c = false →
    (if endsWithNl c then nlTerm (rustLines c) else joinNl (rustLines c)) = c
  | [], _ => by decide
  | [b], _ => by
    by_cases hb : b = 10
    · subst hb
      decide
    · have hrl : rustLines [b] = [[b]] := by
        unfold rustLines
        rw [splitNl_cons_ne b [] hb [] [] rfl]
        rw [if_neg (by simp)]
        simp [List.getLastD_cons, List.getLastD]
      have hew : endsWithNl [b] = false := by simp [endsWithNl, hb]
      rw [hrl, hew]
      simp [joinNl]
  | b :: x :: t, h => by
    have hC : hasCRLF (x :: t) = false := hasCRLF_tail b (x :: t) h
    have ih := rustLines_reassemble (x :: t) hC
    have hew : endsWithNl (b :: x :: t) = endsWithNl (x :: t) := by
      simp [endsWithNl, List.getLast?_cons_cons]
    by_cases hb : b = 10
    · subst hb
      rw [rustLines_cons_nl (x :: t), hew]
      by_cases he : endsWithNl (x :: t)
      · rw [if_pos he] at ih ⊢
        have hn : nlTerm ([] :: rustLines (x :: t)) = 10 :: nlTerm (rustLines (x :: t)) := by
          simp [nlTerm]
        rw [hn, ih]
      · rw [if_neg he] at ih ⊢
        rw [joinNl_cons_of_ne_nil [] _ (rustLines_ne_nil (x :: t) (by simp)), ih]
        rfl
    · rcases hrl : rustLines (x :: t) with _ | ⟨l, ls⟩
      · exact absurd hrl (rustLines_ne_nil (x :: t) (by simp))
      · have hstep := rustLines_cons_ne b (x :: t) hb l ls hrl (hasCRLF_head b (x :: t) h)
        rw [hstep, hew]
        by_cases he : endsWithNl (x :: t)
        · rw [if_pos he] at ih ⊢
          rw [hrl] at ih
          have hn : nlTerm ((b :: l) :: ls) = b :: nlTerm (l :: ls) := by
            simp [nlTerm]
          rw [hn, ih]
        · rw [if_neg he] at ih ⊢
          rw [hrl] at ih
          rcases ls with _ | ⟨m, ms⟩
          · simp only [joinNl] at ih ⊢
            rw [ih]
          · simp only [joinNl] at ih ⊢
            rw [List.cons_append, ih]

theorem getLast?_mem_nat : ∀ (l : List Nat) (a : Nat), l.getLast? = some a → a ∈ l
  | [], a, h => by simp at h
  | [x], a, h => by
    simp at h
    simp [h]
  | x :: y :: t, a, h => by
    rw [List.getLast?_cons_cons] at h
    exact List.mem_cons_of_mem x (getLast?_mem_nat (y :: t) a h)

/-- A newline-free, nonempty-last joined line list is nonempty and does not
end in a newline byte. -/
theorem joinNl_props : ∀ (X : List (List Nat)), X ≠ [] → X.getLast? ≠ some [] →
    (∀ l ∈ X, 10 ∉ l) → joinNl X ≠ [] ∧ endsWithNl (joinNl X) = false
  | [], h, _, _ => absurd rfl h
  | [x], _, hlast, hnl => by
    have hx : x ≠ [] := by simpa using hlast
    refine ⟨by simpa [joinNl] using hx, ?_⟩
    have hy : x.getLast? ≠ some 10 := fun hg =>
      (hnl x (by simp)) (getLast?_mem_nat x 10 hg)
    simp [joinNl, endsWithNl, hy]
  | x :: y :: t, _, hlast, hnl => by
    have ih := joinNl_props (y :: t) (by simp)
      (by rwa [List.getLast?_cons_cons] at hlast)
      (fun l hl => hnl l (List.mem_cons_of_mem x hl))
    rw [joinNl_cons_of_ne_nil x (y :: t) (by simp)]
    refine ⟨by simp, ?_⟩
    rcases hJ : joinNl (y :: t) with _ | ⟨j, js⟩
    · exact absurd hJ ih.1
    · rw [hJ] at ih
      simp only [endsWithNl] at ih ⊢
      rw [List.getLast?_append_of_ne_nil _ (by simp), List.getLast?_cons_cons]
      exact ih.2

/-- C9 counterexample: three successful copies violating the frame property
as stated. (1) Destination `"a\r\nb\n"`, replacing line 2 with `c`: the
written bytes begin `97, 10` although line 1's original bytes - outside the
replaced range - were `97, 13, 10`: `str::lines` strips the CR and the
rebuild joins with bare newlines. (2) Destination `"a\nb\n\n"`, replacing
line 1 with `c`: the written bytes do not end with the original
out-of-range suffix `98, 10, 10` - the empty final line collapses because
the rebuilt join already ends in a newline, so the trailing newline is not
re-appended. (3) Destination `"a\nb"` without a trailing newline, replacing
line 2 by a source region ending in an empty line: the written bytes gain a
trailing newline, breaking the trailing-newline convention. -/
theorem copyHunk_frame_cex :
    ((copyHunkExec envW
        ⟨⟨2, "s", ⟨2, [99, 10], some false, false⟩⟩,
         ⟨3, "d", ⟨3, [97, 13, 10, 98, 10], some false, false⟩⟩,
         ⟨⟨⟨1, 1⟩, ⟨2, 1⟩⟩, [[43, 98]]⟩⟩).trace.head? =
      some (.writeBlob [97, 10, 99, 10]) ∧
      [97, 13, 10, 98, 10].take 3 = [97, 13, 10] ∧
      [97, 10, 99, 10].take 3 ≠ [97, 13, 10]) ∧
    ((copyHunkExec envW
        ⟨⟨2, "s", ⟨2, [99, 10], some false, false⟩⟩,
         ⟨3, "d", ⟨3, [97, 10, 98, 10, 10], some false, false⟩⟩,
         ⟨⟨⟨1, 1⟩, ⟨1, 1⟩⟩, [[43, 97]]⟩⟩).trace.head? =
      some (.writeBlob [99, 10, 98, 10]) ∧
      [97, 10, 98, 10, 10].drop 2 = [98, 10, 10] ∧
      [99, 10, 98, 10].drop 1 ≠ [98, 10, 10]) ∧
    ((copyHunkExec envW
        ⟨⟨2, "s", ⟨2, [99, 10, 10], some false, false⟩⟩,
         ⟨3, "d", ⟨3, [97, 10, 98], some false, false⟩⟩,
         ⟨⟨⟨1, 2⟩, ⟨2, 1⟩⟩, [[43, 98]]⟩⟩).trace.head? =
      some (.writeBlob [97, 10, 99, 10]) ∧
      endsWithNl [97, 10, 98] = false ∧
      endsWithNl [97, 10, 99, 10] = true) := by
  refine ⟨⟨rfl, rfl, by decide⟩, ⟨rfl, rfl, by decide⟩, ⟨rfl, by decide, by decide⟩⟩

/-- C9 (amended): for a copy whose destination content is CRLF-free, whose
recorded range ends strictly before the destination's last line, and whose
destination does not end in an empty line, a successful copy replaces
exactly the recorded line range with the source's from-range lines: the
destination decomposes into newline-terminated prefix lines, range lines and
a tail, the rebuilt content keeps the prefix and tail byte-for-byte while
substituting the region, the trailing-newline convention is preserved, a
byte-identical result is reported as a no-op without any store write, and
otherwise exactly one blob and one tree (carrying the destination's original
executable bit) are written and the destination is rewritten and its
descendants rebased. -/
theorem copyHunk_frame_amended (env : StoreEnv) (a : CopyArgs)
    (himm : env.isImmutableC a.toC.cid = false)
    (hconf : a.toC.tree.conflicted = false)
    (hcount : (expectedToLines a.hunk).length = (actualToLines a).length)
    (hmatch : firstDiff (expectedToLines a.hunk) (actualToLines a) 0 = none)
    (hbfrom : copyFromEnd a ≤ (copyFromLines a).length)
    (hcrlf : hasCRLF a.toC.tree.fileContent = false)
    (hin : copyToEnd a < (copyToLines a).length)
    (hlastL : (copyToLines a).getLast? ≠ some []) :
    (a.toC.tree.fileContent =
      nlTerm ((copyToLines a).take (copyToStart a)) ++
        nlTerm (((copyToLines a).drop (copyToStart a)).take a.hunk.location.to_file.len) ++
        (if endsWithNl a.toC.tree.fileContent then nlTerm ((copyToLines a).drop (copyToEnd a))
         else joinNl ((copyToLines a).drop (copyToEnd a)))) ∧
    (copyNewContent a =
      nlTerm ((copyToLines a).take (copyToStart a)) ++ nlTerm (copyRegion a) ++
        (if endsWithNl a.toC.tree.fileContent then nlTerm ((copyToLines a).drop (copyToEnd a))
         else joinNl ((copyToLines a).drop (copyToEnd a)))) ∧
    endsWithNl (copyNewContent a) = endsWithNl a.toC.tree.fileContent ∧
    (copyNewContent a = a.toC.tree.fileContent →
      copyHunkExec env a = ⟨.ok .unchanged, [], false⟩) ∧
    (copyNewContent a ≠ a.toC.tree.fileContent →
      copyHunkExec env a = ⟨.ok (finishResult env),
        [.writeBlob (copyNewContent a),
         .writeTree (env.updateTree a.toC.tree (copyNewContent a)
           (a.toC.tree.fileExec.getD false)),
         .rewriteCommit a.toC.cid
           (env.updateTree a.toC.tree (copyNewContent a)
             (a.toC.tree.fileExec.getD false)) none,
         .rebaseDescendants], true⟩) := by
  have hS : (copyToLines a).drop (copyToEnd a) ≠ [] := by
    intro hc
    rw [List.drop_eq_nil_iff] at hc
    omega
  have hMS : ((copyToLines a).drop (copyToStart a)).take a.hunk.location.to_file.len ++
      (copyToLines a).drop (copyToEnd a) ≠ [] := by
    intro hc
    rcases List.append_eq_nil.mp hc with ⟨-, h2⟩
    exact hS h2
  have hRS : copyRegion a ++ (copyToLines a).drop (copyToEnd a) ≠ [] := by
    intro hc
    rcases List.append_eq_nil.mp hc with ⟨-, h2⟩
    exact hS h2
  have hsplitL : copyToLines a =
      (copyToLines a).take (copyToStart a) ++
        (((copyToLines a).drop (copyToStart a)).take a.hunk.location.to_file.len ++
          (copyToLines a).drop (copyToEnd a)) := by
    have h1 : (copyToLines a).take (copyToStart a) ++ (copyToLines a).drop (copyToStart a) =
        copyToLines a := List.take_append_drop _ _
    have h2 : ((copyToLines a).drop (copyToStart a)).take a.hunk.location.to_file.len ++
        ((copyToLines a).drop (copyToStart a)).drop a.hunk.location.to_file.len =
        (copyToLines a).drop (copyToStart a) := List.take_append_drop _ _
    have h3 : ((copyToLines a).drop (copyToStart a)).drop a.hunk.location.to_file.len =
        (copyToLines a).drop (copyToEnd a) := by
      rw [List.drop_drop]
      unfold copyToEnd
      rw [Nat.add_comm]
    rw [h3] at h2
    calc copyToLines a
        = (copyToLines a).take (copyToStart a) ++ (copyToLines a).drop (copyToStart a) :=
          h1.symm
      _ = (copyToLines a).take (copyToStart a) ++
            (((copyToLines a).drop (copyToStart a)).take a.hunk.location.to_file.len ++
              (copyToLines a).drop (copyToEnd a)) := by rw [h2]
  have hSlast : ((copyToLines a).drop (copyToEnd a)).getLast? = (copyToLines a).getLast? := by
    conv_rhs => rw [hsplitL]
    rw [List.getLast?_append_of_ne_nil _ hMS, List.getLast?_append_of_ne_nil _ hS]
  have hreas := rustLines_reassemble a.toC.tree.fileContent hcrlf
  have hfirst : a.toC.tree.fileContent =
      nlTerm ((copyToLines a).take (copyToStart a)) ++
        nlTerm (((copyToLines a).drop (copyToStart a)).take a.hunk.location.to_file.len) ++
        (if endsWithNl a.toC.tree.fileContent then nlTerm ((copyToLines a).drop (copyToEnd a))
         else joinNl ((copyToLines a).drop (copyToEnd a))) := by
    by_cases he : endsWithNl a.toC.tree.fileContent
    · rw [if_pos he]
      rw [if_pos he] at hreas
      rw [← hreas]
      show nlTerm (rustLines a.toC.tree.fileContent) = _
      rw [show rustLines a.toC.tree.fileContent = copyToLines a from rfl, hsplitL,
        nlTerm_append, nlTerm_append]
      rw [← hsplitL]
      simp [List.append_assoc]
    · rw [if_neg he]
      rw [if_neg he] at hreas
      rw [← hreas]
      show joinNl (rustLines a.toC.tree.fileContent) = _
      rw [show rustLines a.toC.tree.fileContent = copyToLines a from rfl]
      conv_lhs => rw [hsplitL]
      rw [joinNl_append _ _ hMS, joinNl_append _ _ hS]
      simp [List.append_assoc]
  have hXnl : ∀ l ∈ (copyToLines a).take (copyToStart a) ++
      (copyRegion a ++ (copyToLines a).drop (copyToEnd a)), 10 ∉ l := by
    intro l hl
    rcases List.mem_append.mp hl with hm | hm
    · exact rustLines_no_nl a.toC.tree.fileContent l (List.take_subset _ _ hm)
    · rcases List.mem_append.mp hm with hm2 | hm2
      · exact rustLines_no_nl a.fromC.tree.fileContent l
          (List.drop_subset _ _ (List.take_subset _ _ hm2))
      · exact rustLines_no_nl a.toC.tree.fileContent l (List.drop_subset _ _ hm2)
  have hXne : (copyToLines a).take (copyToStart a) ++
      (copyRegion a ++ (copyToLines a).drop (copyToEnd a)) ≠ [] := by
    intro hc
    rcases List.append_eq_nil.mp hc with ⟨-, h2⟩
    exact hRS h2
  have hXlast : ((copyToLines a).take (copyToStart a) ++
      (copyRegion a ++ (copyToLines a).drop (copyToEnd a))).getLast? ≠ some [] := by
    rw [List.getLast?_append_of_ne_nil _ hRS, List.getLast?_append_of_ne_nil _ hS, hSlast]
    exact hlastL
  have hjp := joinNl_props _ hXne hXlast hXnl
  have hshape : copyNewContent a =
      finishContent ((copyToLines a).take (copyToStart a) ++
        (copyRegion a ++ (copyToLines a).drop (copyToEnd a)))
        (endsWithNl a.toC.tree.fileContent) := by
    unfold copyNewContent
    rw [List.append_assoc]
  have hsecond : copyNewContent a =
      nlTerm ((copyToLines a).take (copyToStart a)) ++ nlTerm (copyRegion a) ++
        (if endsWithNl a.toC.tree.fileContent then nlTerm ((copyToLines a).drop (copyToEnd a))
         else joinNl ((copyToLines a).drop (copyToEnd a))) := by
    rw [hshape]
    unfold finishContent
    by_cases he : endsWithNl a.toC.tree.fileContent
    · rw [if_pos (by
        simp only [he, Bool.true_and]
        rw [Bool.and_eq_true, Bool.not_eq_true', Bool.not_eq_true']
        constructor
        · rw [← Bool.not_eq_true, List.isEmpty_iff]
          exact hjp.1
        · exact hjp.2)]
      rw [show joinNl ((copyToLines a).take (copyToStart a) ++
          (copyRegion a ++ (copyToLines a).drop (copyToEnd a))) ++ [10] =
          nlTerm ((copyToLines a).take (copyToStart a) ++
            (copyRegion a ++ (copyToLines a).drop (copyToEnd a))) from
        (nlTerm_eq_joinNl_append _ hXne).symm]
      rw [nlTerm_append, nlTerm_append, if_pos he]
      simp [List.append_assoc]
    · rw [if_neg (by simp [he])]
      rw [joinNl_append _ _ hRS, joinNl_append _ _ hS, if_neg he]
      simp [List.append_assoc]
  have hthird : endsWithNl (copyNewContent a) = endsWithNl a.toC.tree.fileContent := by
    rw [hshape]
    unfold finishContent
    by_cases he : endsWithNl a.toC.tree.fileContent
    · rw [if_pos (by
        simp only [he, Bool.true_and]
        rw [Bool.and_eq_true, Bool.not_eq_true', Bool.not_eq_true']
        constructor
        · rw [← Bool.not_eq_true, List.isEmpty_iff]
          exact hjp.1
        · exact hjp.2)]
      rw [he]
      simp [endsWithNl, List.getLast?_concat]
    · rw [if_neg (by simp [he])]
      rw [Bool.not_eq_true] at he
      rw [he]
      exact hjp.2
  have hbto : ¬ (copyToEnd a > (copyToLines a).length) := by omega
  have hbfr : ¬ (copyFromEnd a > (copyFromLines a).length) := by omega
  refine ⟨hfirst, hsecond, hthird, ?_, ?_⟩
  · intro heq
    simp [copyHunkExec, himm, hconf, hbto, hbfr, hcount, hmatch, heq]
  · intro hne
    simp [copyHunkExec, himm, hconf, hbto, hbfr, hcount, hmatch, hne]

/-- A copy request that passes validation and rewrites the destination. -/
def cargsFrame : CopyArgs :=
  ⟨⟨2, "s", ⟨2, [122, 10], some false, false⟩⟩,
   ⟨3, "d", ⟨3, [112, 10, 113, 10, 114, 10], some true, false⟩⟩,
   ⟨⟨⟨1, 1⟩, ⟨2, 1⟩⟩, [[43, 113]]⟩⟩

theorem copyHunk_frame_amended_witness :
    copyNewContent cargsFrame =
      nlTerm ((copyToLines cargsFrame).take (copyToStart cargsFrame)) ++
        nlTerm (copyRegion cargsFrame) ++
        (if endsWithNl cargsFrame.toC.tree.fileContent
         then nlTerm ((copyToLines cargsFrame).drop (copyToEnd cargsFrame))
         else joinNl ((copyToLines cargsFrame).drop (copyToEnd cargsFrame))) ∧
    endsWithNl (copyNewContent cargsFrame) = endsWithNl cargsFrame.toC.tree.fileContent := by
  have h := copyHunk_frame_amended envW cargsFrame rfl rfl (by decide) (by decide)
    (by decide) (by decide) (by decide) (by decide)
  exact ⟨h.2.1, h.2.2.1⟩

/-! ## C6: round trip of unified hunks -/

/-- Lines a tagged line list contributes to the right buffer: context and
added lines' contents; removed lines skipped. -/
def emitTagged (ls : List (DiffLineType × List Nat)) : List (List Nat) :=
  ls.filterMap (fun tl => if tl.1 = DiffLineType.removed then none else some tl.2)

/-- Number of left-buffer lines a tagged line list consumes: context and
removed lines. -/
def consumedL (ls : List (DiffLineType × List Nat)) : Nat :=
  (ls.filter (fun tl => tl.1 ≠ DiffLineType.added)).length

/-- Invariant of the in-construction hunk: its left range is 1-based,
nondegenerate, and its width is the number of left lines its tagged lines
consume. -/
def wfCursor (h : UHunk) : Prop :=
  1 ≤ h.lStart ∧ h.lStart ≤ h.lEnd ∧ h.lEnd = h.lStart + consumedL h.lines

theorem emitTagged_append (a b : List (DiffLineType × List Nat)) :
    emitTagged (a ++ b) = emitTagged a ++ emitTagged b := by
  simp [emitTagged]

theorem consumedL_append (a b : List (DiffLineType × List Nat)) :
    consumedL (a ++ b) = consumedL a + consumedL b := by
  simp [consumedL]

theorem emitTagged_map_context (ls : List (List Nat)) :
    emitTagged (ls.map (fun l => (DiffLineType.context, l))) = ls := by
  simp [emitTagged, List.filterMap_map, Function.comp_def]

theorem emitTagged_map_removed (ls : List (List Nat)) :
    emitTagged (ls.map (fun l => (DiffLineType.removed, l))) = [] := by
  simp [emitTagged, List.filterMap_map, Function.comp_def]

theorem emitTagged_map_added (ls : List (List Nat)) :
    emitTagged (ls.map (fun l => (DiffLineType.added, l))) = ls := by
  simp [emitTagged, List.filterMap_map, Function.comp_def]

theorem consumedL_map_context (ls : List (List Nat)) :
    consumedL (ls.map (fun l => (DiffLineType.context, l))) = ls.length := by
  simp [consumedL, List.filter_map]

theorem consumedL_map_removed (ls : List (List Nat)) :
    consumedL (ls.map (fun l => (DiffLineType.removed, l))) = ls.length := by
  simp [consumedL, List.filter_map]

theorem consumedL_map_added (ls : List (List Nat)) :
    consumedL (ls.map (fun l => (DiffLineType.added, l))) = 0 := by
  simp [consumedL, List.filter_map]

/-- The tag byte written by `get_unified_hunks` is faithfully stripped again
by the replay's emit step. -/
theorem emitLines_tagged : ∀ (ls : List (DiffLineType × List Nat)),
    emitLines (ls.map (fun tl => tagByte tl.1 :: tl.2)) = emitTagged ls
  | [] => rfl
  | (t, c) :: rest => by
    have ih := emitLines_tagged rest
    cases t <;>
      simpa [emitLines, emitTagged, List.filterMap_cons, tagByte] using ih

theorem replayHunks_nil (L : List (List Nat)) (pos : Nat) :
    replayHunks L [] pos = L.drop pos := rfl

theorem replayHunks_cons (L : List (List Nat)) (h : ChangeHunk) (hs : List ChangeHunk)
    (pos : Nat) :
    replayHunks L (h :: hs) pos =
      (L.drop pos).take (h.location.from_file.start - 1 - pos) ++ emitLines h.lines
        ++ replayHunks L hs (h.location.from_file.start - 1 + h.location.from_file.len) := rfl

theorem udhAux_nil (ctx : Nat) (cur : UHunk) :
    udhAux ctx [] cur = if cur.lines.isEmpty then [] else [cur] := rfl

theorem udhAux_different (ctx : Nat) (l r : List (List Nat)) (rest : List DiffSeg)
    (cur : UHunk) :
    udhAux ctx (.different l r :: rest) cur =
      udhAux ctx rest (extendAdded (extendRemoved cur l) r) := rfl

theorem udhAux_matching (ctx : Nat) (ms : List (List Nat)) (rest : List DiffSeg)
    (cur : UHunk) (tls rem bef : List (List Nat)) (skip : Nat) (cur2 : UHunk)
    (htls : tls = if cur.lines.isEmpty then [] else ms.take ctx)
    (hrem : rem = if cur.lines.isEmpty then ms else ms.drop ctx)
    (hbef : bef = if rest.isEmpty then [] else takeLast ctx rem)
    (hskip : skip = rem.length - bef.length)
    (hcur2 : cur2 = extendContext cur tls) :
    udhAux ctx (.matching ms :: rest) cur =
      if skip = 0 then udhAux ctx rest (extendContext cur2 bef)
      else if cur2.lines.isEmpty then
        udhAux ctx rest (extendContext
          ⟨cur2.lEnd + skip, cur2.lEnd + skip, cur2.rEnd + skip, cur2.rEnd + skip, []⟩ bef)
      else cur2 :: udhAux ctx rest (extendContext
          ⟨cur2.lEnd + skip, cur2.lEnd + skip, cur2.rEnd + skip, cur2.rEnd + skip, []⟩ bef) := by
  subst htls hrem hbef hskip hcur2
  rfl

/-- Invariant of the `unified_diff_hunks` loop: replaying the hunks it still
produces, from any position at or before the current hunk's left start,
yields the untouched left lines up to that start, the current hunk's
context/added lines, and the right lines of the remaining segments. -/
theorem udh_replay (ctx : Nat) (L : List (List Nat)) :
    ∀ (segs : List DiffSeg) (cur : UHunk) (pos : Nat),
      wfCursor cur → pos ≤ cur.lStart - 1 →
      L.drop (cur.lEnd - 1) = segsL segs →
      replayHunks L (List.map toChangeHunk (udhAux ctx segs cur)) pos =
        (L.drop pos).take (cur.lStart - 1 - pos) ++ emitTagged cur.lines ++ segsR segs
  | [], cur, pos, hwf, hpos, hL => by
    obtain ⟨h1, h2, h3⟩ := hwf
    rw [udhAux_nil]
    by_cases hemp : cur.lines.isEmpty
    · rw [if_pos hemp, List.map_nil, replayHunks_nil]
      have hcl : cur.lines = [] := List.isEmpty_iff.mp hemp
      have hcons : consumedL cur.lines = 0 := by rw [hcl]; rfl
      have hlen : L.length ≤ cur.lStart - 1 := by
        rw [show segsL [] = [] from rfl, List.drop_eq_nil_iff] at hL
        omega
      rw [hcl, show emitTagged [] = [] from rfl, show segsR [] = [] from rfl,
        List.append_nil, List.append_nil]
      rw [List.take_of_length_le (by rw [List.length_drop]; omega)]
    · rw [if_neg hemp, List.map_cons, List.map_nil, replayHunks_cons, replayHunks_nil]
      rw [show (toChangeHunk cur).location.from_file.start = cur.lStart from rfl,
        show (toChangeHunk cur).location.from_file.len = cur.lEnd - cur.lStart from rfl,
        show (toChangeHunk cur).lines =
          cur.lines.map (fun tl => tagByte tl.1 :: tl.2) from rfl]
      rw [emitLines_tagged]
      rw [show cur.lStart - 1 + (cur.lEnd - cur.lStart) = cur.lEnd - 1 from by omega]
      rw [hL, show segsL [] = [] from rfl, show segsR [] = [] from rfl, List.append_nil]
  | .different l r :: rest, cur, pos, hwf, hpos, hL => by
    obtain ⟨h1, h2, h3⟩ := hwf
    rw [udhAux_different]
    have hlS : (extendAdded (extendRemoved cur l) r).lStart = cur.lStart := rfl
    have hlE : (extendAdded (extendRemoved cur l) r).lEnd = cur.lEnd + l.length := rfl
    have hlines : (extendAdded (extendRemoved cur l) r).lines =
        cur.lines ++ (l.map (fun x => (DiffLineType.removed, x)) ++
          r.map (fun x => (DiffLineType.added, x))) := by
      show cur.lines ++ l.map _ ++ r.map _ = _
      rw [List.append_assoc]
    have hwf' : wfCursor (extendAdded (extendRemoved cur l) r) := by
      refine ⟨?_, ?_, ?_⟩
      · rw [hlS]
        exact h1
      · rw [hlS, hlE]
        omega
      · rw [hlS, hlE, hlines, consumedL_append, consumedL_append, consumedL_map_removed,
          consumedL_map_added]
        omega
    have hL' : L.drop ((extendAdded (extendRemoved cur l) r).lEnd - 1) = segsL rest := by
      rw [hlE]
      rw [show cur.lEnd + l.length - 1 = cur.lEnd - 1 + l.length from by omega,
        ← List.drop_drop, hL,
        show segsL (DiffSeg.different l r :: rest) = l ++ segsL rest from rfl,
        List.drop_left]
    have ih := udh_replay ctx L rest (extendAdded (extendRemoved cur l) r) pos hwf'
      (by rw [hlS]; exact hpos) hL'
    rw [ih, hlS, hlines, emitTagged_append, emitTagged_append, emitTagged_map_removed,
      emitTagged_map_added,
      show segsR (DiffSeg.different l r :: rest) = r ++ segsR rest from rfl]
    simp [List.append_assoc]
  | .matching ms :: rest, cur, pos, hwf, hpos, hL => by
    obtain ⟨h1, h2, h3⟩ := hwf
    set tls := (if cur.lines.isEmpty then [] else ms.take ctx) with htls
    set rem := (if cur.lines.isEmpty then ms else ms.drop ctx) with hrem
    set bef := (if rest.isEmpty then [] else takeLast ctx rem) with hbef
    set skip := rem.length - bef.length with hskip
    set cur2 := extendContext cur tls with hcur2
    rw [udhAux_matching ctx ms rest cur tls rem bef skip cur2 htls hrem hbef hskip hcur2]
    have hms : ms = tls ++ rem := by
      by_cases he : cur.lines.isEmpty
      · rw [htls, hrem, if_pos he, if_pos he]
        rfl
      · rw [htls, hrem, if_neg he, if_neg he, List.take_append_drop]
    have hsplit : rem.take skip ++ bef = rem := by
      by_cases hre : rest.isEmpty
      · have hb : bef = [] := by rw [hbef, if_pos hre]
        rw [hb, List.append_nil, hskip, hb]
        exact List.take_of_length_le (by simp)
      · have hb : bef = takeLast ctx rem := by rw [hbef, if_neg hre]
        have hblen : bef.length = rem.length - (rem.length - ctx) := by
          rw [hb]
          unfold takeLast
          rw [List.length_drop]
        have hsk : skip = rem.length - ctx := by rw [hskip, hblen]; omega
        have hb2 : bef = rem.drop skip := by rw [hb, hsk]; rfl
        rw [hb2]
        exact List.take_append_drop skip rem
    have hskle : skip ≤ rem.length := by rw [hskip]; omega
    have hsb : skip + bef.length = rem.length := by
      have hlen := congrArg List.length hsplit
      rw [List.length_append, List.length_take, Nat.min_eq_left hskle] at hlen
      omega
    have hc2s : cur2.lStart = cur.lStart := rfl
    have hc2e : cur2.lEnd = cur.lEnd + tls.length := rfl
    have hc2l : cur2.lines = cur.lines ++ tls.map (fun x => (DiffLineType.context, x)) := rfl
    have hL2 : L.drop (cur2.lEnd - 1) = rem ++ segsL rest := by
      rw [hc2e, show cur.lEnd + tls.length - 1 = cur.lEnd - 1 + tls.length from by omega,
        ← List.drop_drop, hL,
        show segsL (DiffSeg.matching ms :: rest) = ms ++ segsL rest from rfl, hms,
        List.append_assoc, List.drop_left]
    have hemp2 : cur2.lines.isEmpty = cur.lines.isEmpty := by
      by_cases he : cur.lines.isEmpty = true
      · rw [he, hc2l, List.isEmpty_iff.mp he, htls, if_pos he]
        rfl
      · rw [Bool.not_eq_true] at he
        rw [he, hc2l]
        rcases hx : cur.lines with _ | ⟨a, as⟩
        · rw [hx] at he
          simp at he
        · rfl
    by_cases hsz : skip = 0
    · rw [if_pos hsz]
      have hbrem : bef = rem := by
        have hs := hsplit
        rw [hsz, List.take_zero, List.nil_append] at hs
        exact hs
      have h3s : (extendContext cur2 bef).lStart = cur.lStart := rfl
      have h3e : (extendContext cur2 bef).lEnd = cur2.lEnd + bef.length := rfl
      have h3l : (extendContext cur2 bef).lines =
          cur2.lines ++ bef.map (fun x => (DiffLineType.context, x)) := rfl
      have hwf3 : wfCursor (extendContext cur2 bef) := by
        refine ⟨?_, ?_, ?_⟩
        · rw [h3s]
          exact h1
        · rw [h3s, h3e, hc2e]
          omega
        · rw [h3s, h3e, hc2e, h3l, hc2l, consumedL_append, consumedL_append,
            consumedL_map_context, consumedL_map_context]
          omega
      have hL3 : L.drop ((extendContext cur2 bef).lEnd - 1) = segsL rest := by
        rw [h3e, show cur2.lEnd + bef.length - 1 = cur2.lEnd - 1 + bef.length from by
          rw [hc2e]; omega,
          ← List.drop_drop, hL2, hbrem, List.drop_left]
      have ih := udh_replay ctx L rest (extendContext cur2 bef) pos hwf3
        (by rw [h3s]; exact hpos) hL3
      rw [ih, h3s, h3l, hc2l, emitTagged_append, emitTagged_append, emitTagged_map_context,
        emitTagged_map_context,
        show segsR (DiffSeg.matching ms :: rest) = ms ++ segsR rest from rfl, hms, hbrem]
      simp [List.append_assoc]
    · rw [if_neg hsz]
      set nextCur := extendContext
        ⟨cur2.lEnd + skip, cur2.lEnd + skip, cur2.rEnd + skip, cur2.rEnd + skip, []⟩ bef
        with hnext
      have hns : nextCur.lStart = cur2.lEnd + skip := rfl
      have hne : nextCur.lEnd = cur2.lEnd + skip + bef.length := rfl
      have hnl : nextCur.lines = bef.map (fun x => (DiffLineType.context, x)) := rfl
      have hwfn : wfCursor nextCur := by
        refine ⟨?_, ?_, ?_⟩
        · rw [hns, hc2e]
          omega
        · rw [hns, hne]
          omega
        · rw [hns, hne, hnl, consumedL_map_context]
      have hLn : L.drop (nextCur.lEnd - 1) = segsL rest := by
        rw [hne, show cur2.lEnd + skip + bef.length - 1 = cur2.lEnd - 1 + rem.length from by
          rw [hc2e]; omega,
          ← List.drop_drop, hL2, List.drop_left]
      by_cases hempc : cur2.lines.isEmpty
      · rw [if_pos hempc]
        have hcemp : cur.lines.isEmpty = true := by rw [← hemp2]; exact hempc
        have hcl : cur.lines = [] := List.isEmpty_iff.mp hcemp
        have htlsnil : tls = [] := by rw [htls, if_pos hcemp]
        have hes : cur.lEnd = cur.lStart := by
          rw [h3, hcl]
          rfl
        have ih := udh_replay ctx L rest nextCur pos hwfn
          (by rw [hns, hc2e, hes]; omega) hLn
        rw [ih, hns, hnl, emitTagged_map_context, hc2e, htlsnil, hes, hcl,
          show emitTagged [] = [] from rfl,
          show segsR (DiffSeg.matching ms :: rest) = ms ++ segsR rest from rfl, hms, htlsnil,
          List.length_nil, Nat.add_zero, List.nil_append]
        rw [show cur.lStart + skip - 1 - pos = (cur.lStart - 1 - pos) + skip from by omega,
          List.take_add, List.drop_drop,
          show pos + (cur.lStart - 1 - pos) = cur.lStart - 1 from by omega,
          show L.drop (cur.lStart - 1) = rem ++ segsL rest from by
            rw [show cur.lStart - 1 = cur2.lEnd - 1 from by
              rw [hc2e, htlsnil, hes, List.length_nil, Nat.add_zero]]
            exact hL2,
          List.take_append_of_le_length hskle]
        simp only [List.append_nil, List.append_assoc]
        congr 1
        rw [← List.append_assoc, hsplit]
      · rw [if_neg hempc, List.map_cons, replayHunks_cons]
        rw [show (toChangeHunk cur2).location.from_file.start = cur2.lStart from rfl,
          show (toChangeHunk cur2).location.from_file.len = cur2.lEnd - cur2.lStart from rfl,
          show (toChangeHunk cur2).lines =
            cur2.lines.map (fun tl => tagByte tl.1 :: tl.2) from rfl,
          emitLines_tagged]
        have hse2 : cur.lStart ≤ cur2.lEnd := by rw [hc2e]; omega
        have hpose : cur2.lStart - 1 + (cur2.lEnd - cur2.lStart) = cur2.lEnd - 1 := by
          rw [hc2s, hc2e]
          omega
        have ih := udh_replay ctx L rest nextCur (cur2.lEnd - 1) hwfn
          (by rw [hns]; rw [hc2e]; omega) hLn
        rw [hpose, ih, hns, hnl, emitTagged_map_context,
          show cur2.lEnd + skip - 1 - (cur2.lEnd - 1) = skip from by rw [hc2e]; omega,
          hL2, List.take_append_of_le_length hskle, hc2s, hc2l, emitTagged_append,
          emitTagged_map_context,
          show segsR (DiffSeg.matching ms :: rest) = ms ++ segsR rest from rfl, hms]
        rw [show rem.take skip ++ bef ++ segsR rest =
            rem ++ segsR rest from by rw [hsplit],
          List.append_assoc, List.append_assoc, List.append_assoc]
        simp [List.append_assoc]

/-- C6: round trip of unified hunks. For every left/right buffer pair -
presented as the line-level diff's segments, whose left (resp. right) lines
concatenate to the left (resp. right) buffer - and every context size,
replaying the hunks `get_unified_hunks` produces in order over the left
buffer's lines (copying the left lines before each hunk's recorded
`from_file` start, emitting the hunk's context and added lines with their
tag byte stripped, skipping its removed lines and the recorded `from_file`
range, and copying the left lines after the last hunk) reconstructs the
right buffer's lines exactly. -/
theorem unified_hunks_roundtrip (ctx : Nat) (segs : List DiffSeg) :
    replayHunks (segsL segs) (get_unified_hunks ctx segs) 0 = segsR segs := by
  have h := udh_replay ctx (segsL segs) segs ⟨1, 1, 1, 1, []⟩ 0
    ⟨Nat.le_refl 1, Nat.le_refl 1, by simp [consumedL]⟩ (by omega) (by simp)
  rw [get_unified_hunks, unified_diff_hunks] at *
  rw [h]
  simp [emitTagged]

end GG
